import Mathlib

/-!
# Bookstore: catalog view and cart store

A shallow embedding of the decision logic of `src/script.js` (classes
`BookTreasuresApp`, `SearchManager` and `CartManager`) together with the
properties stated about it.

Modelling conventions.

* JavaScript strings are Lean `String`s (sequences of Unicode scalar values).
* JavaScript numbers are doubles (`JsNum`): `NaN`, the infinities, and the
  finite doubles by their rational value; every arithmetic operation rounds
  its exact result to the nearest double, ties to even. A quantity of a cart
  line is a finite integer-valued double and is kept as an `Int`.
* `String.prototype.toLowerCase` is passed to the operations that call it as
  the parameter `toLowerCase`, so every statement holds for whichever lowering
  function the platform provides; `asciiLower` is the instance used on
  concrete ASCII inputs.
* DOM rendering is not modelled; an operation returns the new state and, where
  the program notifies the user, the notification.
-/

namespace Bookstore

/-! ## Numbers -/

/-- A JavaScript number: `NaN`, an infinity, or a finite double, given by its
value (the sign of zero is not recorded). -/
inductive JsNum where
  | nan
  | negInf
  | fin (value : Rat)
  | posInf
  deriving DecidableEq, Repr

/-- Numerals denote the finite number of that value. -/
instance (n : Nat) : OfNat JsNum n := ⟨JsNum.fin n⟩

/-- The number of binary digits of `n`, computed with a budget of `fuel`
halvings. -/
def bitLength : Nat → Nat → Nat
  | 0, _ => 0
  | fuel + 1, n => if n = 0 then 0 else bitLength fuel (n / 2) + 1

/-- The number of binary digits of `n` (0 for 0). -/
def bits (n : Nat) : Nat := bitLength n n

/-- The multiple of `2 ^ shift` nearest to `n`, counted in units of
`2 ^ shift`; a tie goes to the even count. -/
def nearestCount (n shift : Nat) : Nat :=
  if 2 * (n % 2 ^ shift) < 2 ^ shift then n / 2 ^ shift
  else if 2 ^ shift < 2 * (n % 2 ^ shift) then n / 2 ^ shift + 1
  else if (n / 2 ^ shift) % 2 = 0 then n / 2 ^ shift
  else n / 2 ^ shift + 1

/-- The integer with at most 53 significant binary digits nearest to `n`
(round to nearest, ties to even): the double nearest to `n`, short of
overflow. -/
def nearest53 (n : Nat) : Nat :=
  nearestCount n (bits n - 53) * 2 ^ (bits n - 53)

/-- The double nearest to the natural number `n`: it overflows to `Infinity`
when the rounded value reaches `2 ^ 1024`, that is, has more than 1024 binary
digits. -/
def roundNat (n : Nat) : JsNum :=
  if 1024 < bits (nearest53 n) then JsNum.posInf else JsNum.fin (nearest53 n)

/-- The operation `-x`. -/
def JsNum.neg : JsNum → JsNum
  | .nan => .nan
  | .negInf => .posInf
  | .fin q => .fin (-q)
  | .posInf => .negInf

/-- The double nearest to the integer `z`. -/
def roundInt (z : Int) : JsNum :=
  if 0 ≤ z then roundNat z.toNat else JsNum.neg (roundNat z.natAbs)

/-- The integer-valued double nearest to `z`, where no overflow can occur (as
in the sum of a finite double and 1). -/
def nearestInt53 (z : Int) : Int :=
  if 0 ≤ z then (nearest53 z.toNat : Int) else -(nearest53 z.natAbs : Int)

/-- The power `2 ^ k` for an integer `k`. -/
def pow2 (k : Int) : Rat :=
  if 0 ≤ k then ((2 ^ k.toNat : Nat) : Rat) else mkRat 1 (2 ^ (-k).toNat)

/-- The exponent `e` with `2 ^ e ≤ a < 2 ^ (e + 1)`, for a positive `a`. -/
def floorLog2 (a : Rat) : Int :=
  if pow2 ((bits a.num.natAbs : Int) - (bits a.den : Int)) ≤ a then
    (bits a.num.natAbs : Int) - (bits a.den : Int)
  else (bits a.num.natAbs : Int) - (bits a.den : Int) - 1

/-- The integer part of a non-negative rational. -/
def floorNat (a : Rat) : Nat := (a.num / (a.den : Int)).toNat

/-- The integer nearest to a non-negative `a`; a tie goes to the even one. -/
def roundHalfEven (a : Rat) : Nat :=
  if a - (floorNat a : Rat) < 1 / 2 then floorNat a
  else if 1 / 2 < a - (floorNat a : Rat) then floorNat a + 1
  else if floorNat a % 2 = 0 then floorNat a
  else floorNat a + 1

/-- The double nearest to a positive rational `a`: 53 significant binary
digits for a normal number, multiples of `2 ^ (-1074)` below `2 ^ (-1022)`,
`Infinity` when the rounded value reaches `2 ^ 1024`. -/
def roundPos (a : Rat) : JsNum :=
  if 1024 < bits (floorNat
      ((roundHalfEven (a / pow2 (max (floorLog2 a) (-1022) - 52)) : Rat) *
        pow2 (max (floorLog2 a) (-1022) - 52))) then JsNum.posInf
  else
    JsNum.fin ((roundHalfEven (a / pow2 (max (floorLog2 a) (-1022) - 52)) : Rat) *
      pow2 (max (floorLog2 a) (-1022) - 52))

/-- The double nearest to the rational `q` (round to nearest, ties to even). -/
def roundRat (q : Rat) : JsNum :=
  if q.den = 1 then roundInt q.num
  else if 0 < q then roundPos q
  else JsNum.neg (roundPos (-q))

/-- The operation `x + y` on doubles. -/
def JsNum.add : JsNum → JsNum → JsNum
  | .fin a, .fin b => roundRat (a + b)
  | .nan, _ => .nan
  | _, .nan => .nan
  | .posInf, .negInf => .nan
  | .negInf, .posInf => .nan
  | .posInf, _ => .posInf
  | _, .posInf => .posInf
  | .negInf, _ => .negInf
  | _, .negInf => .negInf

/-- The operation `x - y` on doubles. -/
def JsNum.sub (x y : JsNum) : JsNum := JsNum.add x (JsNum.neg y)

/-- The product of an infinity (`negative` tells its sign) and `y`. -/
def JsNum.mulInf (negative : Bool) : JsNum → JsNum
  | .nan => .nan
  | .posInf => if negative then .negInf else .posInf
  | .negInf => if negative then .posInf else .negInf
  | .fin q =>
    if q = 0 then .nan
    else if (0 < q) = !negative then .posInf else .negInf

/-- The operation `x * y` on doubles. -/
def JsNum.mul : JsNum → JsNum → JsNum
  | .fin a, .fin b => roundRat (a * b)
  | .nan, _ => .nan
  | _, .nan => .nan
  | .posInf, y => JsNum.mulInf false y
  | .negInf, y => JsNum.mulInf true y
  | x, .posInf => JsNum.mulInf false x
  | x, .negInf => JsNum.mulInf true x

/-- The comparison `x <= y` on doubles: false when either is `NaN`. -/
def JsNum.le : JsNum → JsNum → Bool
  | .nan, _ => false
  | _, .nan => false
  | .negInf, _ => true
  | _, .posInf => true
  | .fin a, .fin b => decide (a ≤ b)
  | .fin _, .negInf => false
  | .posInf, _ => false

/-- The order `x <= y` of doubles. -/
instance : LE JsNum := ⟨fun x y => JsNum.le x y = true⟩

/-- The order of doubles is decidable. -/
instance (x y : JsNum) : Decidable (x ≤ y) := inferInstanceAs (Decidable (JsNum.le x y = true))

/-! ## Platform primitives used by the program -/

/-- The character class `[0-9]` of the regular expression in `extractPrice`. -/
def isAsciiDigit (c : Char) : Bool :=
  decide (48 ≤ c.toNat) && decide (c.toNat ≤ 57)

/-- ECMAScript `WhiteSpace` and `LineTerminator` code points: what `trim` and
`parseInt` skip. -/
def isWhiteSpace (c : Char) : Bool :=
  c.toNat == 0x09 || c.toNat == 0x0A || c.toNat == 0x0B || c.toNat == 0x0C ||
  c.toNat == 0x0D || c.toNat == 0x20 || c.toNat == 0xA0 || c.toNat == 0x1680 ||
  (decide (0x2000 ≤ c.toNat) && decide (c.toNat ≤ 0x200A)) ||
  c.toNat == 0x2028 || c.toNat == 0x2029 || c.toNat == 0x202F ||
  c.toNat == 0x205F || c.toNat == 0x3000 || c.toNat == 0xFEFF

/-- Value of a character as a digit in the given radix (`0-9`, `a-z`, `A-Z`),
when it is one. -/
def digitValue (radix : Nat) (c : Char) : Option Nat :=
  if 48 ≤ c.toNat ∧ c.toNat ≤ 57 then
    (if c.toNat - 48 < radix then some (c.toNat - 48) else none)
  else if 97 ≤ c.toNat ∧ c.toNat ≤ 122 then
    (if c.toNat - 87 < radix then some (c.toNat - 87) else none)
  else if 65 ≤ c.toNat ∧ c.toNat ≤ 90 then
    (if c.toNat - 55 < radix then some (c.toNat - 55) else none)
  else none

/-- Reads digits of the radix from the left until the first character that is
not one, accumulating the value. -/
def parseDigits (radix : Nat) : List Char → Nat → Nat
  | [], acc => acc
  | c :: cs, acc =>
    match digitValue radix c with
    | some d => parseDigits radix cs (radix * acc + d)
    | none => acc

/-- Strips an optional sign, returning the sign and the rest. -/
def stripSign : List Char → Int × List Char
  | [] => (1, [])
  | c :: r => if c = '-' then (-1, r) else if c = '+' then (1, r) else (1, c :: r)

/-- Strips a leading `0x` / `0X`, returning the radix and the rest. -/
def stripHexMarker : List Char → Nat × List Char
  | c :: d :: r =>
    if c = '0' ∧ (d = 'x' ∨ d = 'X') then (16, r) else (10, c :: d :: r)
  | l => (10, l)

/-- The global `parseInt(string)` without a radix argument: leading white space
is skipped, then an optional sign, then an optional hexadecimal marker, then
the longest run of digits; the result is the double nearest to the integer
read (every digit counts, as in V8), or `NaN` when no digit was read. -/
def parseInt (s : String) : JsNum :=
  let s1 := s.toList.dropWhile isWhiteSpace
  let signed := stripSign s1
  let based := stripHexMarker signed.2
  let z := based.2.takeWhile (fun c => (digitValue based.1 c).isSome)
  if z.isEmpty then JsNum.nan else roundInt (signed.1 * (parseDigits based.1 z 0 : Nat))

/-- The expression `x || 0` on a number: `NaN` and `0` are falsy. -/
def orZero : JsNum → JsNum
  | .nan => 0
  | .fin q => if q = 0 then 0 else .fin q
  | .posInf => .posInf
  | .negInf => .negInf

/-- The call `priceString.replace(/[^0-9]/g, '')`: every character outside
`0-9` is removed. -/
def stripNonDigits (priceString : String) : String :=
  String.mk (priceString.toList.filter isAsciiDigit)

/-- ASCII lower-casing, which is `toLowerCase` on ASCII strings. -/
def asciiLower (s : String) : String :=
  String.mk (s.toList.map Char.toLower)

/-! ## Data model -/

/-- A catalog item, with the fields the modelled operations read. -/
structure Book where
  id : String
  title : String
  author : String
  category : String
  price : String
  image : String
  deriving DecidableEq, Repr

/-- A line of the cart, as `addToCart` builds it: the price is a number, the
quantity a finite integer-valued one. -/
structure CartLine where
  id : String
  title : String
  author : String
  price : JsNum
  image : String
  quantity : Int
  deriving DecidableEq, Repr

/-! ## BookTreasuresApp -/

/-- The fields `books` (the full list) and `filteredBooks` (the view) of the
application object. -/
structure BookTreasuresApp where
  books : List Book
  filteredBooks : List Book
  deriving DecidableEq, Repr

/-- The book that `loadBooks` puts in the catalog. -/
def itEndsWithUs : Book :=
  { id := "1", title := "It Ends With Us", author := "Colleen Hoover", category := "fiction",
    price := "350",
    image := "https://images-na.ssl-images-amazon.com/images/P/1501110365.01.L.jpg" }

/-- The application object once `loadBooks` has run. -/
def loadedApp : BookTreasuresApp :=
  { books := [itEndsWithUs], filteredBooks := [itEndsWithUs] }

/-- Example data: a nonfiction item priced below the fiction one. -/
def sapiens : Book :=
  { id := "2", title := "Sapiens", author := "Yuval Noah Harari", category := "nonfiction",
    price := "₹50", image := "" }

/-- Example data: a catalog of two items. -/
def twoBooks : BookTreasuresApp :=
  { books := [sapiens, itEndsWithUs], filteredBooks := [] }

/-- Example data: a second item at the price of `itEndsWithUs`. -/
def verity : Book :=
  { id := "3", title := "Verity", author := "Colleen Hoover", category := "Fiction",
    price := "₹350", image := "" }

/-- Truthiness of a string value: only the empty string is falsy. -/
def truthy (s : String) : Bool := s != ""

/-- The method `BookTreasuresApp.extractPrice`. -/
def BookTreasuresApp.extractPrice (priceString : String) : JsNum :=
  orZero (parseInt (stripNonDigits priceString))

/-- The parsed price of an item: `this.extractPrice(book.price)`. -/
def Book.parsedPrice (book : Book) : JsNum :=
  BookTreasuresApp.extractPrice book.price

/-- The method `filterByCategory(category)`. -/
def BookTreasuresApp.filterByCategory (toLowerCase : String → String)
    (app : BookTreasuresApp) (category : String) : BookTreasuresApp :=
  if category = "all" then
    { app with filteredBooks := app.books }
  else
    { app with filteredBooks := app.books.filter (fun book =>
        truthy book.category && (toLowerCase book.category == toLowerCase category)) }

/-- The method `filterByPrice(maxPrice)`. -/
def BookTreasuresApp.filterByPrice (app : BookTreasuresApp) (maxPrice : Int) :
    BookTreasuresApp :=
  { app with filteredBooks := app.books.filter (fun book =>
      JsNum.le (BookTreasuresApp.extractPrice book.price) (JsNum.fin maxPrice)) }

/-- Whether the result of `compareFn(a, b)` lets `a` stand before `b`: it is
negative or zero, where `NaN` counts as `+0`. -/
def notAfter : JsNum → Bool
  | .nan => true
  | v => JsNum.le v 0

/-- One insertion step of the stable sort: `a` goes before the first element
it does not compare greater than. -/
def insertSorted {α : Type} (cmp : α → α → JsNum) (a : α) : List α → List α
  | [] => [a]
  | b :: l => if notAfter (cmp a b) then a :: b :: l else b :: insertSorted cmp a l

/-- The call `array.sort(compareFn)`: a stable sort, where a negative result
of `compareFn(a, b)` puts `a` first and a zero result keeps the input order. -/
def stableSort {α : Type} (cmp : α → α → JsNum) : List α → List α
  | [] => []
  | a :: l => insertSorted cmp a (stableSort cmp l)

/-- The method `sortBooks(sortBy)`. The comparators of the `rating` and `name`
keys (a difference of ratings and `localeCompare`) are parameters. -/
def BookTreasuresApp.sortBooks (cmpRating cmpName : Book → Book → JsNum)
    (app : BookTreasuresApp) (sortBy : String) : BookTreasuresApp :=
  if sortBy = "price-low" then
    { app with
      filteredBooks :=
        stableSort
          (fun a b =>
            JsNum.sub (BookTreasuresApp.extractPrice a.price)
              (BookTreasuresApp.extractPrice b.price))
          app.filteredBooks }
  else if sortBy = "price-high" then
    { app with
      filteredBooks :=
        stableSort
          (fun a b =>
            JsNum.sub (BookTreasuresApp.extractPrice b.price)
              (BookTreasuresApp.extractPrice a.price))
          app.filteredBooks }
  else if sortBy = "rating" then
    { app with filteredBooks := stableSort cmpRating app.filteredBooks }
  else if sortBy = "name" then
    { app with filteredBooks := stableSort cmpName app.filteredBooks }
  else app

/-! ## SearchManager -/

/-- The method `String.prototype.trim`. -/
def trim (s : String) : String :=
  String.mk ((s.toList.dropWhile isWhiteSpace).reverse.dropWhile isWhiteSpace).reverse

/-- Whether `needle` occurs in the character list at some position, trying the
positions from the left. -/
def includesChars (needle : List Char) : List Char → Bool
  | [] => needle.isEmpty
  | c :: hay => needle.isPrefixOf (c :: hay) || includesChars needle hay

/-- The method `String.prototype.includes`. -/
def includes (hay needle : String) : Bool :=
  includesChars needle.toList hay.toList

/-- The method `SearchManager.performSearch(query)`, acting on `window.app`
(`none` when the application object does not exist). -/
def SearchManager.performSearch (toLowerCase : String → String)
    (app : Option BookTreasuresApp) (query : String) : Option BookTreasuresApp :=
  if !truthy (trim query) then
    app.map (fun a => { a with filteredBooks := a.books })
  else
    app.map (fun a => { a with filteredBooks := a.books.filter (fun book =>
      includes (toLowerCase book.title) (toLowerCase query) ||
      includes (toLowerCase book.author) (toLowerCase query) ||
      includes (toLowerCase book.category) (toLowerCase query)) })

/-- The specification's "appears as a substring": the characters of `needle`
occur contiguously, in order, somewhere in `hay`. -/
def containsSubstring (hay needle : String) : Prop :=
  ∃ before after : List Char, hay.toList = before ++ needle.toList ++ after

/-! ## JSON text, as the cart is persisted -/

/-- A value that `JSON.parse` returns. -/
inductive Json where
  | null
  | bool (b : Bool)
  | num (n : JsNum)
  | str (s : String)
  | arr (items : List Json)
  | obj (members : List (String × Json))

/-- Why reading a JSON text stopped: the text is not JSON, or the reader's
recursion budget ran out. -/
inductive ParseFail where
  | malformed
  | outOfFuel
  deriving DecidableEq, Repr

/-- JSON white space: space, tab, line feed, carriage return. -/
def isJsonSpace (c : Char) : Bool :=
  c.toNat == 0x20 || c.toNat == 0x09 || c.toNat == 0x0A || c.toNat == 0x0D

/-- Drops leading JSON white space. -/
def skipSpace (l : List Char) : List Char := l.dropWhile isJsonSpace

/-- The character a single-letter escape stands for. -/
def unescape (e : Char) : Option Char :=
  if e.toNat = 34 then some (Char.ofNat 34)        -- quotation mark
  else if e.toNat = 92 then some (Char.ofNat 92)   -- reverse solidus
  else if e = '/' then some '/'
  else if e = 'b' then some (Char.ofNat 8)
  else if e = 'f' then some (Char.ofNat 12)
  else if e = 'n' then some (Char.ofNat 10)
  else if e = 'r' then some (Char.ofNat 13)
  else if e = 't' then some (Char.ofNat 9)
  else none

/-- The code unit four hexadecimal digits denote. -/
def hex4 (a b c d : Char) : Option Nat :=
  match digitValue 16 a, digitValue 16 b, digitValue 16 c, digitValue 16 d with
  | some x, some y, some z, some w => some (((x * 16 + y) * 16 + z) * 16 + w)
  | _, _, _, _ => none

/-- Ends a pending high surrogate half that got no low half: it is not a
`Char`, and is read as U+FFFD. -/
def flushHalf (pending : Option Nat) (acc : List Char) : List Char :=
  match pending with
  | some _ => Char.ofNat 0xFFFD :: acc
  | none => acc

/-- Takes in the code unit `n` of a `\u` escape: a low surrogate half joins the
pending high half into one character, a high half becomes pending, any other
code unit is its character. Returns the pending half and the characters. -/
def pushUnit (pending : Option Nat) (n : Nat) (acc : List Char) : Option Nat × List Char :=
  if 0xD800 ≤ n ∧ n ≤ 0xDBFF then (some n, flushHalf pending acc)
  else if 0xDC00 ≤ n ∧ n ≤ 0xDFFF then
    match pending with
    | some hi => (none, Char.ofNat (0x10000 + (hi - 0xD800) * 0x400 + (n - 0xDC00)) :: acc)
    | none => (none, Char.ofNat 0xFFFD :: acc)
  else (none, Char.ofNat n :: flushHalf pending acc)

/-- Reads a JSON string after its opening quotation mark, up to and including
the closing one; `acc` holds the characters read so far, last first, and
`pending` a high surrogate half read from the `\u` escape just before. -/
def readString : List Char → Option Nat → List Char → Option (String × List Char)
  | [], _, _ => none
  | c :: r, pending, acc =>
    if c.toNat = 34 then some (String.mk (flushHalf pending acc).reverse, r)
    else if c.toNat = 92 then
      match r with
      | [] => none
      | e :: r1 =>
        if e = 'u' then
          match r1 with
          | h1 :: h2 :: h3 :: h4 :: r2 =>
            match hex4 h1 h2 h3 h4 with
            | some n => readString r2 (pushUnit pending n acc).1 (pushUnit pending n acc).2
            | none => none
          | _ => none
        else
          match unescape e with
          | some ch => readString r1 none (ch :: flushHalf pending acc)
          | none => none
    else if c.toNat < 32 then none
    else readString r none (c :: flushHalf pending acc)

/-- Reads an optional fraction `.digits`, returning its digits and the rest. -/
def readFraction : List Char → Option (List Char × List Char)
  | [] => some ([], [])
  | c :: r =>
    if c = '.' then
      (if (r.takeWhile isAsciiDigit).isEmpty then none
       else some (r.takeWhile isAsciiDigit, r.dropWhile isAsciiDigit))
    else some ([], c :: r)

/-- Reads an optional exponent `e` / `E`, sign, digits, returning its value and
the rest. -/
def readExponent : List Char → Option (Int × List Char)
  | [] => some (0, [])
  | c :: r =>
    if c = 'e' ∨ c = 'E' then
      (if ((stripSign r).2.takeWhile isAsciiDigit).isEmpty then none
       else some ((stripSign r).1 * (parseDigits 10 ((stripSign r).2.takeWhile isAsciiDigit) 0 : Nat),
                  (stripSign r).2.dropWhile isAsciiDigit))
    else some (0, c :: r)

/-- The number `mantissa * 10 ^ exponent`. -/
def scale10 (mantissa : Int) (exponent : Int) : Rat :=
  if 0 ≤ exponent then ((mantissa * 10 ^ exponent.toNat : Int) : Rat)
  else mkRat mantissa (10 ^ (-exponent).toNat)

/-- Reads the digits of a JSON number after its optional minus sign: an
integer part without a superfluous leading zero, then fraction and exponent;
the value is the double nearest to the decimal. -/
def readUnsigned : List Char → Option (JsNum × List Char)
  | [] => none
  | d :: r =>
    if !isAsciiDigit d then none
    else
      match readFraction (if d = '0' then r else r.dropWhile isAsciiDigit) with
      | none => none
      | some (frac, r2) =>
        match readExponent r2 with
        | none => none
        | some (e, r3) =>
          some (roundRat (scale10
            (parseDigits 10 ((if d = '0' then [d] else d :: r.takeWhile isAsciiDigit) ++ frac) 0 : Nat)
            (e - frac.length)), r3)

/-- Reads a JSON number. -/
def readNumber : List Char → Option (JsNum × List Char)
  | [] => none
  | c :: r =>
    if c = '-' then (readUnsigned r).map (fun p => (JsNum.neg p.1, p.2))
    else readUnsigned (c :: r)

/-- Strips a literal word from the front of the input. -/
def readWord (word : String) (l : List Char) : Option (List Char) :=
  if word.toList.isPrefixOf l then some (l.drop word.length) else none

mutual

/-- Reads one JSON value; `fuel` bounds the number of nested reader calls. -/
def readValue : Nat → List Char → Except ParseFail (Json × List Char)
  | 0, _ => .error .outOfFuel
  | fuel + 1, l =>
    match skipSpace l with
    | [] => .error .malformed
    | c :: r =>
      if c.toNat = 91 then              -- opening square bracket
        match skipSpace r with
        | [] => .error .malformed
        | d :: r1 =>
          if d.toNat = 93 then .ok (.arr [], r1)
          else readElements fuel (d :: r1) []
      else if c.toNat = 123 then        -- opening curly bracket
        match skipSpace r with
        | [] => .error .malformed
        | d :: r1 =>
          if d.toNat = 125 then .ok (.obj [], r1)
          else readMembers fuel (d :: r1) []
      else if c.toNat = 34 then         -- quotation mark
        match readString r none [] with
        | some (s, r1) => .ok (.str s, r1)
        | none => .error .malformed
      else if c = 'n' then
        match readWord "null" (c :: r) with
        | some r1 => .ok (.null, r1)
        | none => .error .malformed
      else if c = 't' then
        match readWord "true" (c :: r) with
        | some r1 => .ok (.bool true, r1)
        | none => .error .malformed
      else if c = 'f' then
        match readWord "false" (c :: r) with
        | some r1 => .ok (.bool false, r1)
        | none => .error .malformed
      else
        match readNumber (c :: r) with
        | some (n, r1) => .ok (.num n, r1)
        | none => .error .malformed

/-- Reads the elements of an array up to its closing bracket; `acc` holds the
elements read so far, last first. -/
def readElements : Nat → List Char → List Json → Except ParseFail (Json × List Char)
  | 0, _, _ => .error .outOfFuel
  | fuel + 1, l, acc =>
    match readValue fuel l with
    | .error e => .error e
    | .ok (v, r) =>
      match skipSpace r with
      | [] => .error .malformed
      | c :: r1 =>
        if c = ',' then readElements fuel r1 (v :: acc)
        else if c.toNat = 93 then .ok (.arr (v :: acc).reverse, r1)
        else .error .malformed

/-- Reads the members of an object up to its closing bracket; `acc` holds the
members read so far, last first. -/
def readMembers : Nat → List Char → List (String × Json) →
    Except ParseFail (Json × List Char)
  | 0, _, _ => .error .outOfFuel
  | fuel + 1, l, acc =>
    match skipSpace l with
    | [] => .error .malformed
    | c :: r =>
      if c.toNat = 34 then
        match readString r none [] with
        | none => .error .malformed
        | some (k, r1) =>
          match skipSpace r1 with
          | [] => .error .malformed
          | d :: r2 =>
            if d = ':' then
              match readValue fuel r2 with
              | .error e => .error e
              | .ok (v, r3) =>
                match skipSpace r3 with
                | [] => .error .malformed
                | e :: r4 =>
                  if e = ',' then readMembers fuel r4 ((k, v) :: acc)
                  else if e.toNat = 125 then .ok (.obj ((k, v) :: acc).reverse, r4)
                  else .error .malformed
            else .error .malformed
      else .error .malformed

end

/-- The function `JSON.parse(text)`: one value, surrounded by optional white
space, and nothing else. Of any two nested reader calls one consumes a
character, so the budget of two calls per character is never exhausted
(`jsonParse_error`). -/
def jsonParse (text : String) : Except ParseFail Json :=
  match readValue (2 * text.length + 2) text.toList with
  | .error e => .error e
  | .ok (v, rest) =>
    match skipSpace rest with
    | [] => .ok v
    | _ :: _ => .error .malformed

/-- The hexadecimal digit (lower case) of a number below sixteen. -/
def hexDigit (n : Nat) : Char :=
  Char.ofNat (if n < 10 then 48 + n else 87 + n)

/-- How `JSON.stringify` writes one character of a string. -/
def quoteChar (c : Char) : List Char :=
  if c.toNat = 34 then [Char.ofNat 92, Char.ofNat 34]
  else if c.toNat = 92 then [Char.ofNat 92, Char.ofNat 92]
  else if c.toNat = 8 then [Char.ofNat 92, 'b']
  else if c.toNat = 12 then [Char.ofNat 92, 'f']
  else if c.toNat = 10 then [Char.ofNat 92, 'n']
  else if c.toNat = 13 then [Char.ofNat 92, 'r']
  else if c.toNat = 9 then [Char.ofNat 92, 't']
  else if c.toNat < 32 then
    [Char.ofNat 92, 'u', '0', '0', hexDigit (c.toNat / 16), hexDigit (c.toNat % 16)]
  else [c]

/-- How `JSON.stringify` writes a string. -/
def quote (s : String) : String :=
  String.mk (Char.ofNat 34 :: (s.toList.flatMap quoteChar ++ [Char.ofNat 34]))

/-- The power `10 ^ k` for an integer `k`. -/
def pow10 (k : Int) : Rat :=
  if 0 ≤ k then ((10 ^ k.toNat : Nat) : Rat) else mkRat 1 (10 ^ (-k).toNat)

/-- The decimal exponent `n` of a positive `x`: `10 ^ (n - 1) ≤ x < 10 ^ n`. -/
def decimalExponent (x : Rat) : Int :=
  if pow10 (((Nat.toDigits 10 x.num.natAbs).length : Int) -
      ((Nat.toDigits 10 x.den).length : Int)) ≤ x then
    ((Nat.toDigits 10 x.num.natAbs).length : Int) - ((Nat.toDigits 10 x.den).length : Int) + 1
  else ((Nat.toDigits 10 x.num.natAbs).length : Int) - ((Nat.toDigits 10 x.den).length : Int)

/-- Of the two multiples of `unit` next to the positive double `x`, the one
that `x` is the nearest double of, counted in units; when both are, the one
closer to `x`, and of two equally close ones the even one. -/
def digitsAt (x unit : Rat) : Option Nat :=
  if roundRat ((floorNat (x / unit) : Rat) * unit) = JsNum.fin x then
    (if roundRat (((floorNat (x / unit) + 1 : Nat) : Rat) * unit) = JsNum.fin x then
      (if x - (floorNat (x / unit) : Rat) * unit < ((floorNat (x / unit) + 1 : Nat) : Rat) * unit - x
        then some (floorNat (x / unit))
       else if ((floorNat (x / unit) + 1 : Nat) : Rat) * unit - x < x - (floorNat (x / unit) : Rat) * unit
        then some (floorNat (x / unit) + 1)
       else if floorNat (x / unit) % 2 = 0 then some (floorNat (x / unit))
       else some (floorNat (x / unit) + 1))
     else some (floorNat (x / unit)))
  else if roundRat (((floorNat (x / unit) + 1 : Nat) : Rat) * unit) = JsNum.fin x then
    some (floorNat (x / unit) + 1)
  else none

/-- The shortest decimal that reads back as the positive double `x`, whose
decimal exponent is `n`: tries `k`, `k + 1`, ... significant digits and
returns the digits as a number together with the power of ten of its unit. -/
def shortestDecimal (x : Rat) (n : Int) : Nat → Nat → Nat × Int
  | 0, k => (floorNat (x / pow10 (n - k)), n - k)
  | fuel + 1, k =>
    match digitsAt x (pow10 (n - k)) with
    | some s => (s, n - k)
    | none => shortestDecimal x n fuel (k + 1)

/-- Writes the decimal `0.digits × 10 ^ n` (no trailing zero in `digits`) the
way `Number.prototype.toString` does. -/
def formatDecimal (digits : List Char) (n : Int) : String :=
  if (digits.length : Int) ≤ n ∧ n ≤ 21 then
    String.mk (digits ++ List.replicate (n.toNat - digits.length) '0')
  else if 0 < n ∧ n ≤ 21 then
    String.mk (digits.take n.toNat ++ '.' :: digits.drop n.toNat)
  else if -6 < n ∧ n ≤ 0 then
    String.mk ('0' :: '.' :: (List.replicate (-n).toNat '0' ++ digits))
  else
    String.mk (digits.take 1 ++ (if digits.length = 1 then [] else '.' :: digits.drop 1) ++
      'e' :: (if 0 ≤ n - 1 then '+' else '-') :: Nat.toDigits 10 (n - 1).natAbs)

/-- The decimal text of a positive double. -/
def positiveToString (x : Rat) : String :=
  formatDecimal
    ((Nat.toDigits 10 (shortestDecimal x (decimalExponent x) 17 1).1).reverse.dropWhile
      (fun c => c = '0')).reverse
    ((shortestDecimal x (decimalExponent x) 17 1).2 +
      (Nat.toDigits 10 (shortestDecimal x (decimalExponent x) 17 1).1).length)

/-- The method `Number.prototype.toString` (radix ten). -/
def numberToString : JsNum → String
  | .nan => "NaN"
  | .posInf => "Infinity"
  | .negInf => "-Infinity"
  | .fin q =>
    if q = 0 then "0"
    else if 0 < q then positiveToString q
    else "-" ++ positiveToString (-q)

/-- How `JSON.stringify` writes a number: a finite one by its decimal text, any
other as `null`. -/
def stringifyNumber : JsNum → String
  | .fin q => numberToString (.fin q)
  | _ => "null"

/-- How `JSON.stringify` writes a cart line: its six properties in the order
they were created. -/
def stringifyLine (item : CartLine) : String :=
  "\x7b\"id\":" ++ quote item.id ++ ",\"title\":" ++ quote item.title ++
  ",\"author\":" ++ quote item.author ++ ",\"price\":" ++ stringifyNumber item.price ++
  ",\"image\":" ++ quote item.image ++ ",\"quantity\":" ++
  stringifyNumber (JsNum.fin item.quantity) ++ "\x7d"

/-- The call `JSON.stringify(this.cart)`. -/
def stringifyCart (cart : List CartLine) : String :=
  "[" ++ ",".intercalate (cart.map stringifyLine) ++ "]"

/-- The value of the property `key` of a parsed object: of several members
with that key the last one counts. -/
def Json.property (key : String) (members : List (String × Json)) : Option Json :=
  (members.reverse.find? (fun member => member.1 == key)).map (fun member => member.2)

/-- The string a parsed value is, if it is one. -/
def Json.asString : Option Json → Option String
  | some (.str s) => some s
  | _ => none

/-- The number a parsed value is, if it is one. -/
def Json.asNumber : Option Json → Option JsNum
  | some (.num n) => some n
  | _ => none

/-- The integer a number is, if it is a finite integer. -/
def JsNum.asInt : JsNum → Option Int
  | .fin q => if q.den = 1 then some q.num else none
  | _ => none

/-- The cart line a parsed value is, when it is an object whose properties
`id`, `title`, `author` and `image` are strings, `price` a number and
`quantity` an integer, in any order and whatever other properties it has. -/
def decodeLine : Json → Option CartLine
  | .obj members =>
    match Json.asString (Json.property "id" members),
          Json.asString (Json.property "title" members),
          Json.asString (Json.property "author" members),
          Json.asNumber (Json.property "price" members),
          Json.asString (Json.property "image" members),
          (Json.asNumber (Json.property "quantity" members)).bind JsNum.asInt with
    | some id, some title, some author, some price, some image, some quantity =>
      some { id := id, title := title, author := author, price := price,
             image := image, quantity := quantity }
    | _, _, _, _, _, _ => none
  | _ => none

/-- The cart lines a list of parsed values is, when each of them is one. -/
def decodeItems : List Json → Option (List CartLine)
  | [] => some []
  | item :: rest =>
    match decodeLine item, decodeItems rest with
    | some line, some lines => some (line :: lines)
    | _, _ => none

/-- The list of cart lines a parsed value is, when it is an array of cart
lines. -/
def decodeLines : Json → Option (List CartLine)
  | .arr items => decodeItems items
  | _ => none

/-- Example data: a stored cart of one line whose properties are out of order
and which has one more property. -/
def storedExample : String :=
  "[\x7b\"quantity\":2,\"id\":\"1\",\"title\":\"It Ends With Us\",\"extra\":true,\"author\":\"Colleen Hoover\",\"price\":350,\"image\":\"\"\x7d]"

/-- Example data: the value that `storedExample` encodes. -/
def restoredExample : Json :=
  Json.arr [Json.obj [("quantity", Json.num 2), ("id", Json.str "1"),
    ("title", Json.str "It Ends With Us"), ("extra", Json.bool true),
    ("author", Json.str "Colleen Hoover"), ("price", Json.num 350), ("image", Json.str "")]]

/-! ## CartManager -/

/-- A call `showNotification(message, type)`. -/
structure Notification where
  message : String
  type : String
  deriving DecidableEq, Repr

/-- An exception that escapes the constructor. -/
inductive JsError where
  | jsonParseError
  | typeError
  deriving DecidableEq, Repr

/-- The cart manager: its field `cart` and the string stored in
`localStorage` under the key `cart` (`none` when the key is absent). -/
structure CartManager where
  cart : List CartLine
  stored : Option String
  deriving DecidableEq, Repr

/-- The expression `localStorage.getItem('cart') || '[]'`: an absent key and
the empty string are falsy. -/
def storedOrEmptyList (stored : Option String) : String :=
  match stored with
  | none => "[]"
  | some s => if truthy s then s else "[]"

mutual

/-- Whether converting a parsed value to a primitive, as `+` must, raises a
type error: an object does when it has an own property `toString` (no parsed
value is callable, and the inherited `valueOf` returns the object); an array
does when joining its elements does. -/
def convertRaises : Json → Bool
  | .arr items => anyConvertRaises items
  | .obj members => members.any (fun member => member.1 == "toString")
  | _ => false

/-- Whether converting some element of the list raises a type error. -/
def anyConvertRaises : List Json → Bool
  | [] => false
  | item :: rest => convertRaises item || anyConvertRaises rest

end

/-- Whether the step `total + item.quantity` raises a type error: `item` is
`null`, or its property `quantity` cannot be converted to a primitive. -/
def stepRaises : Json → Bool
  | .null => true
  | .obj members =>
    match Json.property "quantity" members with
    | some quantity => convertRaises quantity
    | none => false
  | _ => false

/-- Whether `this.cart.reduce((total, item) => total + item.quantity, 0)`
raises a type error: the value is no array, or a step of the reduction
raises one. -/
def reduceRaises : Json → Bool
  | .arr items => items.any stepRaises
  | _ => true

/-- The constructor of `CartManager`: the value it assigns to `this.cart`, or
the exception that escapes it. `getItem` is the stored string, `hasCartCount`
says whether the element `cartCount` exists (`init` then computes the badge). -/
def CartManager.construct (hasCartCount : Bool) (getItem : Option String) :
    Except JsError Json :=
  match jsonParse (storedOrEmptyList getItem) with
  | .error _ => .error .jsonParseError
  | .ok cart =>
    if hasCartCount && reduceRaises cart then .error .typeError else .ok cart

/-- The method `CartManager.extractPrice`. -/
def CartManager.extractPrice (priceString : String) : JsNum :=
  orZero (parseInt (stripNonDigits priceString))

/-- The method `saveCart()`. -/
def CartManager.saveCart (m : CartManager) : CartManager :=
  { m with stored := some (stringifyCart m.cart) }

/-- Applies `f` to the first element that satisfies `p`: an assignment to a
property of the object `find` returned. -/
def modifyFirst (p : CartLine → Bool) (f : CartLine → CartLine) :
    List CartLine → List CartLine
  | [] => []
  | x :: xs => if p x then f x :: xs else x :: modifyFirst p f xs

/-- The method `addToCart(bookId)`; `app` is `window.app`. Returns the new
state and the notification shown. -/
def CartManager.addToCart (app : Option BookTreasuresApp) (m : CartManager)
    (bookId : String) : CartManager × Notification :=
  match app.bind (fun a => a.books.find? (fun b => b.id == bookId)) with
  | none => (m, { message := "Book not found", type := "error" })
  | some book =>
    let cart :=
      match m.cart.find? (fun item => item.id == bookId) with
      | some _ =>
        modifyFirst (fun item => item.id == bookId)
          (fun item => { item with quantity := nearestInt53 (item.quantity + 1) }) m.cart
      | none =>
        m.cart ++
          [{ id := bookId, title := book.title, author := book.author,
             price := CartManager.extractPrice book.price, image := book.image,
             quantity := 1 }]
    (CartManager.saveCart { m with cart := cart },
     { message := book.title ++ " added to cart!", type := "success" })

/-- The method `removeFromCart(bookId)`. -/
def CartManager.removeFromCart (m : CartManager) (bookId : String) : CartManager :=
  CartManager.saveCart { m with cart := m.cart.filter (fun item => item.id != bookId) }

/-- The method `updateQuantity(bookId, quantity)`. -/
def CartManager.updateQuantity (m : CartManager) (bookId : String) (quantity : Int) :
    CartManager :=
  match m.cart.find? (fun item => item.id == bookId) with
  | some _ =>
    let cart :=
      modifyFirst (fun item => item.id == bookId)
        (fun item => { item with quantity := max 1 quantity }) m.cart
    CartManager.saveCart { m with cart := cart }
  | none => m

/-- The method `clearCart()`. -/
def CartManager.clearCart (m : CartManager) : CartManager :=
  CartManager.saveCart { m with cart := [] }

/-- The number `renderCart()` shows as the total, when the cart modal exists
(`hasModal`); without the modal it returns before computing anything. -/
def CartManager.renderCart (hasModal : Bool) (m : CartManager) : Option JsNum :=
  if !hasModal then none
  else if m.cart.length = 0 then some 0
  else some (m.cart.foldl
    (fun total item => JsNum.add total (JsNum.mul item.price (JsNum.fin item.quantity))) 0)

/-- The exact product of price and quantity of a line whose price is a finite
integer (0 for any other price). -/
def CartLine.exactTotal (line : CartLine) : Int :=
  (line.price.asInt.getD 0) * line.quantity

/-- The number `CartManager.updateCartCount()` writes to the badge: the
quantities added up from 0 in cart order. The additions are taken exactly,
which is their value as long as the partial sums stay within `2 ^ 53` in
magnitude. -/
def CartManager.updateCartCount (m : CartManager) : Int :=
  m.cart.foldl (fun total item => total + item.quantity) 0

/-- The number `BookTreasuresApp.updateCartCount()` writes to the badge. -/
def BookTreasuresApp.updateCartCount (m : CartManager) : Int :=
  m.cart.length

/-- Cart well-formedness: every line has a quantity of at least 1 and no two
lines have the same id. -/
def wellFormed (cart : List CartLine) : Prop :=
  (∀ line ∈ cart, 1 ≤ line.quantity) ∧ (cart.map (fun line => line.id)).Nodup

/-- A call of one of the four methods that change the cart. -/
inductive CartAction where
  | add (bookId : String)
  | remove (bookId : String)
  | update (bookId : String) (quantity : Int)
  | clear
  deriving DecidableEq, Repr

/-- The cart manager after one call; `app` is `window.app`. -/
def CartManager.step (app : Option BookTreasuresApp) (m : CartManager) :
    CartAction → CartManager
  | .add bookId => (CartManager.addToCart app m bookId).1
  | .remove bookId => CartManager.removeFromCart m bookId
  | .update bookId quantity => CartManager.updateQuantity m bookId quantity
  | .clear => CartManager.clearCart m

/-- The cart manager after a sequence of calls, first call first. -/
def CartManager.run (app : Option BookTreasuresApp) (m : CartManager) :
    List CartAction → CartManager
  | [] => m
  | action :: rest => CartManager.run app (CartManager.step app m action) rest

/-- The integer a price string denotes according to the specification: its
decimal digits in order, every other character dropped, read in base ten
(least significant digit first for `Nat.ofDigits`). -/
def digitsValue (s : String) : Nat :=
  Nat.ofDigits 10 (((s.toList.filter isAsciiDigit).map (fun c => c.toNat - 48)).reverse)

/-! ## Rounding to the nearest double -/

theorem bitLength_zero (fuel : Nat) : bitLength fuel 0 = 0 := by
  cases fuel <;> simp [bitLength]

theorem bitLength_spec (fuel : Nat) :
    ∀ n, n ≤ fuel →
      n < 2 ^ bitLength fuel n ∧ (n ≠ 0 → 2 ^ (bitLength fuel n - 1) ≤ n) := by
  induction fuel with
  | zero =>
    intro n hn
    have : n = 0 := by omega
    subst this
    simp [bitLength]
  | succ fuel ih =>
    intro n hn
    by_cases h0 : n = 0
    · subst h0
      simp [bitLength]
    · have hhalf : n / 2 ≤ fuel := by omega
      obtain ⟨hlt, hle⟩ := ih (n / 2) hhalf
      simp only [bitLength, h0, if_false]
      refine ⟨?_, fun _ => ?_⟩
      · rw [pow_succ]
        omega
      · simp only [Nat.add_sub_cancel]
        by_cases h1 : n / 2 = 0
        · rw [h1, bitLength_zero]
          simp only [pow_zero]
          omega
        · have hle2 := hle h1
          have hpos : bitLength fuel (n / 2) ≠ 0 := by
            intro hb
            rw [hb] at hlt
            simp only [pow_zero] at hlt
            omega
          obtain ⟨b, hb⟩ := Nat.exists_eq_succ_of_ne_zero hpos
          rw [hb] at hle2 ⊢
          simp only [Nat.succ_sub_one] at hle2
          rw [pow_succ]
          omega

theorem lt_two_pow_bits (n : Nat) : n < 2 ^ bits n :=
  (bitLength_spec n n (le_refl n)).1

theorem two_pow_bits_le (n : Nat) (h : n ≠ 0) : 2 ^ (bits n - 1) ≤ n :=
  (bitLength_spec n n (le_refl n)).2 h

theorem bits_le_of_lt_two_pow (n k : Nat) (h : n < 2 ^ k) : bits n ≤ k := by
  by_cases h0 : n = 0
  · subst h0
    simp [bits, bitLength_zero]
  · have h1 := two_pow_bits_le n h0
    have h2 : 2 ^ (bits n - 1) < 2 ^ k := lt_of_le_of_lt h1 h
    have h3 := (Nat.pow_lt_pow_iff_right (by norm_num : 1 < 2)).1 h2
    omega

theorem nearestCount_zero_shift (n : Nat) : nearestCount n 0 = n := by
  simp [nearestCount, Nat.mod_one]

theorem le_nearestCount (n shift : Nat) : n / 2 ^ shift ≤ nearestCount n shift := by
  unfold nearestCount
  split_ifs <;> omega

theorem nearest53_of_le (n : Nat) (h : n ≤ 2 ^ 53) : nearest53 n = n := by
  rcases Nat.lt_or_ge n (2 ^ 53) with hlt | hge
  · have hb := bits_le_of_lt_two_pow n 53 hlt
    have hs : bits n - 53 = 0 := by omega
    simp [nearest53, hs, nearestCount_zero_shift]
  · have hn : n = 2 ^ 53 := le_antisymm h hge
    have hb1 : bits n ≤ 54 := bits_le_of_lt_two_pow n 54 (by rw [hn]; norm_num)
    have hb2 : 53 < bits n := by
      have := lt_two_pow_bits n
      rw [hn] at this
      have h3 := (Nat.pow_lt_pow_iff_right (by norm_num : 1 < 2)).1 this
      rw [hn]
      exact h3
    have hs : bits n - 53 = 1 := by omega
    rw [nearest53, hs, hn]
    decide

theorem nearest53_pos (n : Nat) (h : 1 ≤ n) : 1 ≤ nearest53 n := by
  have h0 : n ≠ 0 := by omega
  have h1 := two_pow_bits_le n h0
  have h2 : 2 ^ (bits n - 53) ≤ 2 ^ (bits n - 1) :=
    Nat.pow_le_pow_right (by norm_num) (by omega)
  have h3 : 1 ≤ n / 2 ^ (bits n - 53) :=
    (Nat.one_le_div_iff (Nat.pos_pow_of_pos _ (by norm_num))).2 (le_trans h2 h1)
  have h4 := le_nearestCount n (bits n - 53)
  unfold nearest53
  exact Nat.mul_pos (by omega) (Nat.pos_pow_of_pos _ (by norm_num))

theorem nearest53_zero : nearest53 0 = 0 := by decide

theorem bits_le_of_le_two_pow53 (n : Nat) (h : n ≤ 2 ^ 53) : bits n ≤ 1024 := by
  have := bits_le_of_lt_two_pow n 54 (lt_of_le_of_lt h (by norm_num))
  omega

theorem roundNat_of_le (n : Nat) (h : n ≤ 2 ^ 53) : roundNat n = JsNum.fin n := by
  unfold roundNat
  rw [nearest53_of_le n h]
  have := bits_le_of_le_two_pow53 n h
  simp [show ¬ 1024 < bits n by omega]

theorem roundInt_of_abs_le (z : Int) (h1 : -(2 ^ 53) ≤ z) (h2 : z ≤ 2 ^ 53) :
    roundInt z = JsNum.fin z := by
  unfold roundInt
  split_ifs with h0
  · have hn : z.toNat ≤ 2 ^ 53 := by omega
    rw [roundNat_of_le _ hn]
    congr 1
    have : ((z.toNat : Int)) = z := Int.toNat_of_nonneg h0
    exact_mod_cast congrArg (fun t : Int => (t : Rat)) this
  · have hn : z.natAbs ≤ 2 ^ 53 := by omega
    rw [roundNat_of_le _ hn]
    simp only [JsNum.neg]
    congr 1
    have : -((z.natAbs : Int)) = z := by omega
    exact_mod_cast congrArg (fun t : Int => (t : Rat)) this

theorem nearestInt53_of_abs_le (z : Int) (h1 : -(2 ^ 53) ≤ z) (h2 : z ≤ 2 ^ 53) :
    nearestInt53 z = z := by
  unfold nearestInt53
  split_ifs with h0
  · rw [nearest53_of_le _ (by omega)]
    exact Int.toNat_of_nonneg h0
  · rw [nearest53_of_le _ (by omega)]
    omega

theorem one_le_nearestInt53 (z : Int) (h : 1 ≤ z) : 1 ≤ nearestInt53 z := by
  unfold nearestInt53
  have h0 : 0 ≤ z := by omega
  simp only [h0, if_true]
  have := nearest53_pos z.toNat (by omega)
  exact_mod_cast this

theorem roundRat_intCast (z : Int) : roundRat (z : Rat) = roundInt z := by
  simp [roundRat]

theorem roundRat_natCast (n : Nat) : roundRat (n : Rat) = roundNat n := by
  have h : ((n : Rat)) = ((n : Int) : Rat) := by norm_cast
  rw [h, roundRat_intCast]
  simp [roundInt]

/-! ## Price strings -/

theorem isAsciiDigit_iff (c : Char) : isAsciiDigit c = true ↔ 48 ≤ c.toNat ∧ c.toNat ≤ 57 := by
  simp [isAsciiDigit]

theorem isWhiteSpace_of_digit {c : Char} (h : isAsciiDigit c = true) : isWhiteSpace c = false := by
  rw [isAsciiDigit_iff] at h
  simp only [isWhiteSpace, Bool.or_eq_false_iff, Bool.and_eq_false_iff, beq_eq_false_iff_ne,
    decide_eq_false_iff_not, ne_eq]
  omega

theorem digitValue_ten_of_digit {c : Char} (h : isAsciiDigit c = true) :
    digitValue 10 c = some (c.toNat - 48) := by
  rw [isAsciiDigit_iff] at h
  have h2 : c.toNat - 48 < 10 := by omega
  simp [digitValue, h, h2]

theorem dropWhile_ws_digits (l : List Char) (h : ∀ c ∈ l, isAsciiDigit c = true) :
    l.dropWhile isWhiteSpace = l := by
  cases l with
  | nil => rfl
  | cons c r => simp [List.dropWhile, isWhiteSpace_of_digit (h c (by simp))]

theorem stripSign_digits (l : List Char) (h : ∀ c ∈ l, isAsciiDigit c = true) :
    stripSign l = (1, l) := by
  cases l with
  | nil => rfl
  | cons c r =>
    have hc := (isAsciiDigit_iff c).1 (h c (by simp))
    have h1 : c ≠ '-' := by rintro rfl; revert hc; decide
    have h2 : c ≠ '+' := by rintro rfl; revert hc; decide
    simp [stripSign, h1, h2]

theorem stripHexMarker_digits (l : List Char) (h : ∀ c ∈ l, isAsciiDigit c = true) :
    stripHexMarker l = (10, l) := by
  match l, h with
  | [], _ => rfl
  | [_], _ => rfl
  | c :: d :: r, h =>
    have hd := (isAsciiDigit_iff d).1 (h d (by simp))
    have h1 : d ≠ 'x' := by rintro rfl; revert hd; decide
    have h2 : d ≠ 'X' := by rintro rfl; revert hd; decide
    simp [stripHexMarker, h1, h2]

theorem takeWhile_digits (l : List Char) (h : ∀ c ∈ l, isAsciiDigit c = true) :
    l.takeWhile (fun c => (digitValue 10 c).isSome) = l := by
  rw [List.takeWhile_eq_self_iff]
  intro c hc
  simp [digitValue_ten_of_digit (h c hc)]

theorem parseDigits_digits (l : List Char) (h : ∀ c ∈ l, isAsciiDigit c = true) (acc : Nat) :
    parseDigits 10 l acc
      = acc * 10 ^ l.length + Nat.ofDigits 10 ((l.map (fun c => c.toNat - 48)).reverse) := by
  induction l generalizing acc with
  | nil => simp [parseDigits]
  | cons c r ih =>
    have hr : ∀ x ∈ r, isAsciiDigit x = true := fun x hx => h x (List.mem_cons_of_mem _ hx)
    simp only [parseDigits, digitValue_ten_of_digit (h c (by simp)), ih hr, List.map_cons,
      List.reverse_cons, Nat.ofDigits_append, List.length_reverse, List.length_map,
      Nat.ofDigits_singleton, List.length_cons]
    ring

theorem parseInt_digits (l : List Char) (h : ∀ c ∈ l, isAsciiDigit c = true) :
    parseInt (String.mk l)
      = if l.isEmpty then JsNum.nan
        else roundNat (Nat.ofDigits 10 ((l.map (fun c => c.toNat - 48)).reverse)) := by
  have e : (String.mk l).toList = l := rfl
  simp only [parseInt, e, dropWhile_ws_digits _ h, stripSign_digits _ h,
    stripHexMarker_digits _ h, takeWhile_digits _ h, parseDigits_digits _ h]
  simp [roundInt]

theorem orZero_roundNat (n : Nat) : orZero (roundNat n) = roundNat n := by
  unfold roundNat
  split_ifs with h
  · rfl
  · simp only [orZero]
    split_ifs with h0
    · rw [h0]
      rfl
    · rfl

theorem roundNat_zero : roundNat 0 = 0 := by decide

theorem app_extractPrice_eq_roundNat (s : String) :
    BookTreasuresApp.extractPrice s = roundNat (digitsValue s) := by
  have h : ∀ c ∈ s.toList.filter isAsciiDigit, isAsciiDigit c = true := by
    intro c hc; exact (List.mem_filter.1 hc).2
  unfold BookTreasuresApp.extractPrice stripNonDigits digitsValue
  rw [parseInt_digits _ h]
  generalize s.toList.filter isAsciiDigit = l
  cases l with
  | nil =>
    simp only [List.isEmpty_nil, if_true, List.map_nil, List.reverse_nil, Nat.ofDigits_nil,
      roundNat_zero]
    rfl
  | cons c r =>
    simp only [List.isEmpty_cons, Bool.false_eq_true, if_false]
    exact orZero_roundNat _

/-- C3 as stated fails beyond `2 ^ 53`: the digits of "9007199254740993" denote
9007199254740993, but `extractPrice` gives 9007199254740992, the nearest
double; and a string of 400 nines gives `Infinity`. -/
theorem extractPrice_rounds_counterexample :
    digitsValue "9007199254740993" = 9007199254740993 ∧
    BookTreasuresApp.extractPrice "9007199254740993" = JsNum.fin 9007199254740992 ∧
    BookTreasuresApp.extractPrice "9007199254740993"
      ≠ JsNum.fin (digitsValue "9007199254740993") ∧
    BookTreasuresApp.extractPrice
      "9999999999999999999999999999999999999999999999999999999999999999999999999999999999999999999999999999999999999999999999999999999999999999999999999999999999999999999999999999999999999999999999999999999999999999999999999999999999999999999999999999999999999999999999999999999999999999999999999999999999999999999999999999999999999999999999999999999999999999999999999999999999999999999999999999999999999999"
      = JsNum.posInf := by
  decide!

/-- C3, amended: on every price string, `extractPrice` is the double nearest to
the non-negative integer its decimal digits denote once every other character
is removed; it equals that integer whenever the integer is at most `2 ^ 53`,
and is 0 when the string has no digit; so "₹350" gives 350 and "" and "abc"
give 0. The copy in `BookTreasuresApp` and the copy in `CartManager` agree on
every string. -/
theorem extractPrice_spec (s : String) :
    BookTreasuresApp.extractPrice s = roundNat (digitsValue s) ∧
    (digitsValue s ≤ 2 ^ 53 →
      BookTreasuresApp.extractPrice s = JsNum.fin (digitsValue s)) ∧
    ((∀ c ∈ s.toList, isAsciiDigit c = false) → BookTreasuresApp.extractPrice s = 0) ∧
    BookTreasuresApp.extractPrice "₹350" = 350 ∧
    BookTreasuresApp.extractPrice "" = 0 ∧
    BookTreasuresApp.extractPrice "abc" = 0 ∧
    CartManager.extractPrice s = BookTreasuresApp.extractPrice s := by
  refine ⟨app_extractPrice_eq_roundNat s, ?_, ?_, by decide, by decide, by decide, rfl⟩
  · intro h
    rw [app_extractPrice_eq_roundNat, roundNat_of_le _ h]
  · intro h
    have hnil : s.toList.filter isAsciiDigit = [] := by
      rw [List.filter_eq_nil_iff]
      intro c hc
      simp [h c hc]
    rw [app_extractPrice_eq_roundNat, digitsValue, hnil]
    simp [roundNat_zero]

/-- Witness for C3: the digits of "₹350" denote 350, which is below `2 ^ 53`. -/
theorem extractPrice_spec_witness :
    digitsValue "₹350" ≤ 2 ^ 53 ∧
    BookTreasuresApp.extractPrice "₹350" = JsNum.fin (digitsValue "₹350") :=
  ⟨by decide, (extractPrice_spec "₹350").2.1 (by decide)⟩

/-! ## Cart operations -/

theorem find?_id_eq_none (cart : List CartLine) (bookId : String) :
    cart.find? (fun item => item.id == bookId) = none ↔ ∀ l ∈ cart, l.id ≠ bookId := by
  simp [List.find?_eq_none]

theorem find?_id_isSome (cart : List CartLine) (bookId : String)
    (h : ∃ l ∈ cart, l.id = bookId) :
    ∃ line, cart.find? (fun item => item.id == bookId) = some line := by
  cases hf : cart.find? (fun item => item.id == bookId) with
  | some line => exact ⟨line, rfl⟩
  | none =>
    obtain ⟨l, hl, hid⟩ := h
    exact absurd hid ((find?_id_eq_none cart bookId).1 hf l hl)

theorem modifyFirst_split (bookId : String) (f : CartLine → CartLine) (cart : List CartLine)
    (h : ∃ l ∈ cart, l.id = bookId) :
    ∃ pre line post, cart = pre ++ line :: post ∧ (∀ l ∈ pre, l.id ≠ bookId) ∧
      line.id = bookId ∧
      modifyFirst (fun item => item.id == bookId) f cart = pre ++ f line :: post := by
  induction cart with
  | nil => simp at h
  | cons x xs ih =>
    by_cases hx : x.id = bookId
    · exact ⟨[], x, xs, rfl, by simp, hx, by simp [modifyFirst, hx]⟩
    · have h2 : ∃ l ∈ xs, l.id = bookId := by
        obtain ⟨l, hl, hid⟩ := h
        rcases List.mem_cons.1 hl with rfl | hl
        · exact absurd hid hx
        · exact ⟨l, hl, hid⟩
      obtain ⟨pre, line, post, hc, hpre, hline, hmod⟩ := ih h2
      refine ⟨x :: pre, line, post, by simp [hc], ?_, hline, ?_⟩
      · intro l hl
        rcases List.mem_cons.1 hl with rfl | hl
        · exact hx
        · exact hpre l hl
      · simp [modifyFirst, hx, hmod]

theorem find?_book_of_mem (books : List Book) (bookId : String)
    (h : ∃ b ∈ books, b.id = bookId) :
    ∃ book, books.find? (fun b => b.id == bookId) = some book ∧ book ∈ books ∧
      book.id = bookId := by
  cases hf : books.find? (fun b => b.id == bookId) with
  | some book =>
    refine ⟨book, rfl, List.mem_of_find?_eq_some hf, ?_⟩
    simpa using List.find?_some hf
  | none =>
    obtain ⟨b, hb, hid⟩ := h
    have := List.find?_eq_none.1 hf b hb
    simp [hid] at this

theorem addToCart_found_cart (a : BookTreasuresApp) (m : CartManager) (bookId : String)
    (book : Book) (hf : a.books.find? (fun b => b.id == bookId) = some book) :
    (CartManager.addToCart (some a) m bookId).1.cart =
      match m.cart.find? (fun item => item.id == bookId) with
      | some _ =>
        modifyFirst (fun item => item.id == bookId)
          (fun item => { item with quantity := nearestInt53 (item.quantity + 1) }) m.cart
      | none =>
        m.cart ++
          [{ id := bookId, title := book.title, author := book.author,
             price := CartManager.extractPrice book.price, image := book.image,
             quantity := 1 }] := by
  simp [CartManager.addToCart, hf, CartManager.saveCart]

/-- C1 as stated fails at `2 ^ 53`: after `updateQuantity("1", 9007199254740992)`
the line of book "1" has quantity 9007199254740992, and `addToCart("1")` leaves
it at 9007199254740992, since `quantity += 1` rounds to the nearest double. -/
theorem addToCart_saturates_counterexample :
    (CartManager.run (some loadedApp) { cart := [], stored := none }
        [CartAction.add "1", CartAction.update "1" 9007199254740992]).cart
      = [{ id := "1", title := "It Ends With Us", author := "Colleen Hoover",
           price := 350, image := itEndsWithUs.image, quantity := 9007199254740992 }] ∧
    (CartManager.run (some loadedApp) { cart := [], stored := none }
        [CartAction.add "1", CartAction.update "1" 9007199254740992,
         CartAction.add "1"]).cart
      = [{ id := "1", title := "It Ends With Us", author := "Colleen Hoover",
           price := 350, image := itEndsWithUs.image, quantity := 9007199254740992 }] := by
  decide!

/-- C1, amended: when `bookId` is the id of a book of the catalog,
`addToCart(bookId)` finds a book with that id; if the cart has a line with
that id, the first such line gets the double nearest to its quantity plus 1,
which is its quantity increased by exactly 1 whenever that sum is at most
`2 ^ 53` in magnitude, and every other line, the number of lines and their
order are unchanged; otherwise exactly one line is appended at the end, with
quantity 1, the book's title, author and image, and the price
`extractPrice(book.price)`. Adding the same id twice to an empty cart yields
exactly one line, with quantity 2. -/
theorem addToCart_spec (a : BookTreasuresApp) (m : CartManager) (bookId : String)
    (stored : Option String) (hmem : ∃ b ∈ a.books, b.id = bookId) :
    ∃ book, a.books.find? (fun b => b.id == bookId) = some book ∧ book ∈ a.books ∧
      book.id = bookId ∧
      ((∃ l ∈ m.cart, l.id = bookId) →
        ∃ pre line post, m.cart = pre ++ line :: post ∧ (∀ l ∈ pre, l.id ≠ bookId) ∧
          line.id = bookId ∧
          (CartManager.addToCart (some a) m bookId).1.cart =
            pre ++ { line with quantity := nearestInt53 (line.quantity + 1) } :: post ∧
          (-(2 ^ 53) ≤ line.quantity + 1 → line.quantity + 1 ≤ 2 ^ 53 →
            (CartManager.addToCart (some a) m bookId).1.cart =
              pre ++ { line with quantity := line.quantity + 1 } :: post)) ∧
      ((∀ l ∈ m.cart, l.id ≠ bookId) →
        (CartManager.addToCart (some a) m bookId).1.cart =
          m.cart ++ [{ id := bookId, title := book.title, author := book.author,
                       price := CartManager.extractPrice book.price, image := book.image,
                       quantity := 1 }]) ∧
      (CartManager.addToCart (some a)
          (CartManager.addToCart (some a) { cart := [], stored := stored } bookId).1
          bookId).1.cart =
        [{ id := bookId, title := book.title, author := book.author,
           price := CartManager.extractPrice book.price, image := book.image,
           quantity := 2 }] := by
  obtain ⟨book, hf, hb, hid⟩ := find?_book_of_mem a.books bookId hmem
  refine ⟨book, hf, hb, hid, ?_, ?_, ?_⟩
  · intro hex
    obtain ⟨line, hline⟩ := find?_id_isSome m.cart bookId hex
    obtain ⟨pre, ln, post, hc, hpre, hln, hmod⟩ :=
      modifyFirst_split bookId
        (fun item => { item with quantity := nearestInt53 (item.quantity + 1) }) m.cart hex
    have hcart : (CartManager.addToCart (some a) m bookId).1.cart =
        pre ++ { ln with quantity := nearestInt53 (ln.quantity + 1) } :: post := by
      rw [addToCart_found_cart a m bookId book hf, hline]
      exact hmod
    refine ⟨pre, ln, post, hc, hpre, hln, hcart, ?_⟩
    intro h1 h2
    rw [hcart, nearestInt53_of_abs_le _ h1 h2]
  · intro hno
    rw [addToCart_found_cart a m bookId book hf, (find?_id_eq_none m.cart bookId).2 hno]
  · rw [addToCart_found_cart a _ bookId book hf, addToCart_found_cart a _ bookId book hf]
    have h2 : nearestInt53 2 = 2 := by decide
    simp [modifyFirst, h2]

/-- Witness for C1: the catalog of `loadBooks` and the empty cart. -/
theorem addToCart_spec_witness :
    (CartManager.addToCart (some loadedApp)
        (CartManager.addToCart (some loadedApp) { cart := [], stored := none } "1").1 "1").1.cart =
      [{ id := "1", title := "It Ends With Us", author := "Colleen Hoover",
         price := 350, image := itEndsWithUs.image, quantity := 2 }] := by
  obtain ⟨book, hf, -, -, -, -, h2⟩ :=
    addToCart_spec loadedApp { cart := [], stored := none } "1" none
      ⟨itEndsWithUs, List.mem_singleton.2 rfl, rfl⟩
  have hb : book = itEndsWithUs := by
    have h1 : loadedApp.books.find? (fun b => b.id == "1") = some itEndsWithUs := by decide
    exact Option.some.inj (hf.symm.trans h1)
  rw [h2, hb]
  decide

theorem foldl_add_eq_sum (f : CartLine → Int) (cart : List CartLine) (acc : Int) :
    cart.foldl (fun total item => total + f item) acc = acc + (cart.map f).sum := by
  induction cart generalizing acc with
  | nil => simp
  | cons x xs ih => simp [List.foldl_cons, ih, add_assoc]

theorem exactTotal_of_intPrice (line : CartLine) (p : Int) (h : line.price = JsNum.fin p) :
    line.exactTotal = p * line.quantity := by
  simp [CartLine.exactTotal, h, JsNum.asInt]

theorem mul_fin_int (p q : Int) (h : |p * q| ≤ 2 ^ 53) :
    JsNum.mul (JsNum.fin p) (JsNum.fin q) = JsNum.fin ((p * q : Int)) := by
  have hb := abs_le.1 h
  show roundRat ((p : Rat) * (q : Rat)) = _
  rw [← Int.cast_mul, roundRat_intCast, roundInt_of_abs_le _ hb.1 hb.2]

theorem add_fin_int (x y : Int) (h : |x + y| ≤ 2 ^ 53) :
    JsNum.add (JsNum.fin x) (JsNum.fin y) = JsNum.fin ((x + y : Int)) := by
  have hb := abs_le.1 h
  show roundRat ((x : Rat) + (y : Rat)) = _
  rw [← Int.cast_add, roundRat_intCast, roundInt_of_abs_le _ hb.1 hb.2]

theorem sum_abs_nonneg (cart : List CartLine) :
    0 ≤ (cart.map (fun line => |line.exactTotal|)).sum := by
  apply List.sum_nonneg
  intro x hx
  obtain ⟨line, -, rfl⟩ := List.mem_map.1 hx
  exact abs_nonneg _

theorem foldl_total (cart : List CartLine) :
    ∀ acc : Int, (∀ line ∈ cart, ∃ p : Int, line.price = JsNum.fin p) →
      |acc| + (cart.map (fun line => |line.exactTotal|)).sum ≤ 2 ^ 53 →
      cart.foldl
          (fun total item => JsNum.add total (JsNum.mul item.price (JsNum.fin item.quantity)))
          (JsNum.fin acc)
        = JsNum.fin ((acc + (cart.map CartLine.exactTotal).sum : Int)) := by
  induction cart with
  | nil =>
    intro acc _ _
    simp
  | cons line rest ih =>
    intro acc hprice hbound
    obtain ⟨p, hp⟩ := hprice line (by simp)
    have hex := exactTotal_of_intPrice line p hp
    simp only [List.map_cons, List.sum_cons] at hbound ⊢
    have hrest := sum_abs_nonneg rest
    have hacc := abs_nonneg acc
    have hline : |p * line.quantity| ≤ 2 ^ 53 := by
      rw [← hex]
      linarith
    have hsum : |acc + p * line.quantity| ≤ 2 ^ 53 := by
      have := abs_add acc (p * line.quantity)
      rw [← hex] at this ⊢
      linarith
    simp only [List.foldl_cons]
    rw [hp, mul_fin_int p line.quantity hline, add_fin_int acc _ hsum,
      ih (acc + p * line.quantity) (fun l hl => hprice l (List.mem_cons_of_mem _ hl)) (by
        have := abs_add acc (p * line.quantity)
        rw [← hex] at this ⊢
        linarith)]
    rw [hex, add_assoc]

theorem renderCart_exact (c : CartManager)
    (hprice : ∀ line ∈ c.cart, ∃ p : Int, line.price = JsNum.fin p)
    (hbound : (c.cart.map (fun line => |line.exactTotal|)).sum ≤ 2 ^ 53) :
    CartManager.renderCart true c
      = some (JsNum.fin ((c.cart.map CartLine.exactTotal).sum : Int)) := by
  unfold CartManager.renderCart
  by_cases h0 : c.cart.length = 0
  · have : c.cart = [] := List.length_eq_zero.1 h0
    simp [this]
    rfl
  · simp only [Bool.not_true, Bool.false_eq_true, if_false, h0]
    have := foldl_total c.cart 0 hprice (by simpa using hbound)
    have h00 : (0 : JsNum) = JsNum.fin ((0 : Int)) := by
      show JsNum.fin ((0 : Nat) : Rat) = _
      norm_cast
    rw [h00, this]
    simp

theorem renderCart_single (c : CartManager) (line : CartLine) (p : Nat)
    (hc : c.cart = [line]) (hp : line.price = JsNum.fin p) (hq : line.quantity = 2)
    (hb : 2 * p ≤ 2 ^ 53) :
    CartManager.renderCart true c = some (JsNum.fin ((2 * p : Nat))) := by
  have hp2 : line.price = JsNum.fin ((p : Int)) := by
    rw [hp]
    norm_cast
  have hex : line.exactTotal = (p : Int) * 2 := by
    rw [exactTotal_of_intPrice line p hp2, hq]
  have hle : ((p : Int)) * 2 ≤ 2 ^ 53 := by
    have : ((2 * p : Nat) : Int) ≤ 2 ^ 53 := by exact_mod_cast hb
    push_cast at this
    linarith
  rw [renderCart_exact c (by rw [hc]; intro l hl; exact ⟨p, by rw [List.mem_singleton.1 hl, hp2]⟩)
    (by
      rw [hc]
      simp only [List.map_cons, List.map_nil, List.sum_cons, List.sum_nil, add_zero, hex]
      rw [abs_of_nonneg (by positivity)]
      exact hle)]
  rw [hc]
  simp only [List.map_cons, List.map_nil, List.sum_cons, List.sum_nil, add_zero, hex]
  congr 2
  push_cast
  ring

/-- C2 as stated fails beyond `2 ^ 53`: with the price 9007199254740991 and the
quantity 3 the exact product is 27021597764222973, but `renderCart` computes
27021597764222972, the nearest double. -/
theorem renderCart_rounds_counterexample :
    ([{ id := "1", title := "It Ends With Us", author := "Colleen Hoover",
        price := 9007199254740991, image := "", quantity := 3 }].map
      CartLine.exactTotal).sum = 27021597764222973 ∧
    CartManager.renderCart true
        { cart := [{ id := "1", title := "It Ends With Us", author := "Colleen Hoover",
                     price := 9007199254740991, image := "", quantity := 3 }],
          stored := none }
      = some (JsNum.fin 27021597764222972) := by
  decide!

/-- C2, amended: for every cart whose prices are finite integers and whose
products of price and quantity have magnitudes that sum to at most `2 ^ 53`,
the total `renderCart` computes is the exact integer sum over the lines of
price times quantity (0 for the empty cart); after adding the same catalog
item twice to an empty cart it is `2 * extractPrice(book.price)`, provided
that product is at most `2 ^ 53`. -/
theorem renderCart_total (a : BookTreasuresApp) (m : CartManager) (bookId : String)
    (book : Book) (stored : Option String)
    (hfind : a.books.find? (fun b => b.id == bookId) = some book) :
    ((∀ line ∈ m.cart, ∃ p : Int, line.price = JsNum.fin p) →
      (m.cart.map (fun line => |line.exactTotal|)).sum ≤ 2 ^ 53 →
      CartManager.renderCart true m
        = some (JsNum.fin ((m.cart.map CartLine.exactTotal).sum : Int))) ∧
    CartManager.renderCart true { cart := [], stored := stored } = some 0 ∧
    (2 * digitsValue book.price ≤ 2 ^ 53 →
      CartManager.extractPrice book.price = JsNum.fin (digitsValue book.price) ∧
      CartManager.renderCart true
          (CartManager.addToCart (some a)
            (CartManager.addToCart (some a) { cart := [], stored := stored } bookId).1
            bookId).1
        = some (JsNum.fin ((2 * digitsValue book.price : Nat)))) := by
  refine ⟨renderCart_exact m, by simp [CartManager.renderCart], ?_⟩
  intro hb
  have hprice : CartManager.extractPrice book.price = JsNum.fin (digitsValue book.price) :=
    (extractPrice_spec book.price).2.2.2.2.2.2.trans
      ((extractPrice_spec book.price).2.1 (by omega))
  refine ⟨hprice, ?_⟩
  refine renderCart_single _
    { id := bookId, title := book.title, author := book.author,
      price := JsNum.fin (digitsValue book.price), image := book.image, quantity := 2 }
    (digitsValue book.price) ?_ rfl rfl hb
  rw [addToCart_found_cart a _ bookId book hfind, addToCart_found_cart a _ bookId book hfind]
  have h2 : nearestInt53 2 = 2 := by decide
  simp [modifyFirst, h2, hprice]

/-- Witness for C2: the catalog of `loadBooks`, whose book "1" costs 350. -/
theorem renderCart_total_witness :
    2 * digitsValue "350" ≤ 2 ^ 53 ∧
    CartManager.renderCart true
        (CartManager.addToCart (some loadedApp)
          (CartManager.addToCart (some loadedApp) { cart := [], stored := none } "1").1
          "1").1
      = some (JsNum.fin ((2 * digitsValue "350" : Nat))) :=
  ⟨by decide,
   ((renderCart_total loadedApp { cart := [], stored := none } "1" itEndsWithUs none
      (by decide)).2.2 (by decide)).2⟩

/-- C8: if the cart has a line with the id, `updateQuantity(id, q)` sets the
quantity of the first such line to `max(1, q)` and changes no other line, nor
the number or order of the lines (so for `q ≤ 0` the line stays, with quantity
1); if the cart has no line with the id, the cart manager is unchanged. -/
theorem updateQuantity_spec (m : CartManager) (bookId : String) (q : Int) :
    ((∃ l ∈ m.cart, l.id = bookId) →
      ∃ pre line post, m.cart = pre ++ line :: post ∧ (∀ l ∈ pre, l.id ≠ bookId) ∧
        line.id = bookId ∧
        (CartManager.updateQuantity m bookId q).cart =
          pre ++ { line with quantity := max 1 q } :: post ∧
        (q ≤ 0 → (CartManager.updateQuantity m bookId q).cart =
          pre ++ { line with quantity := 1 } :: post)) ∧
    ((∀ l ∈ m.cart, l.id ≠ bookId) → CartManager.updateQuantity m bookId q = m) := by
  constructor
  · intro hex
    obtain ⟨line, hline⟩ := find?_id_isSome m.cart bookId hex
    obtain ⟨pre, ln, post, hc, hpre, hln, hmod⟩ :=
      modifyFirst_split bookId (fun item => { item with quantity := max 1 q }) m.cart hex
    have hcart : (CartManager.updateQuantity m bookId q).cart =
        pre ++ { ln with quantity := max 1 q } :: post := by
      simp only [CartManager.updateQuantity, hline, CartManager.saveCart]
      exact hmod
    refine ⟨pre, ln, post, hc, hpre, hln, hcart, ?_⟩
    intro hq
    rw [hcart, max_eq_left (by omega : q ≤ 1)]
  · intro hno
    simp [CartManager.updateQuantity, (find?_id_eq_none m.cart bookId).2 hno]

/-- Witness for C8: setting the quantity of the only line to 0 leaves it in the
cart with quantity 1. -/
theorem updateQuantity_spec_witness :
    ∃ pre line post,
      [({ id := "1", title := "It Ends With Us", author := "Colleen Hoover",
          price := 350, image := "", quantity := 3 } : CartLine)] = pre ++ line :: post ∧
      (∀ l ∈ pre, l.id ≠ "1") ∧ line.id = "1" ∧
      (CartManager.updateQuantity
          { cart := [{ id := "1", title := "It Ends With Us", author := "Colleen Hoover",
                       price := 350, image := "", quantity := 3 }],
            stored := none } "1" 0).cart = pre ++ { line with quantity := 1 } :: post := by
  obtain ⟨pre, line, post, hc, hpre, hline, -, h0⟩ :=
    (updateQuantity_spec
      { cart := [{ id := "1", title := "It Ends With Us", author := "Colleen Hoover",
                   price := 350, image := "", quantity := 3 }],
        stored := none } "1" 0).1 ⟨_, List.mem_singleton.2 rfl, rfl⟩
  exact ⟨pre, line, post, hc, hpre, hline, h0 (le_refl 0)⟩

/-- C9: when `bookId` is the id of no book of the catalog, `addToCart(bookId)`
shows the error notification "Book not found" and returns the cart manager as
it was: the same lines and the same persisted value. -/
theorem addToCart_unknown (a : BookTreasuresApp) (m : CartManager) (bookId : String)
    (h : ∀ b ∈ a.books, b.id ≠ bookId) :
    CartManager.addToCart (some a) m bookId
      = (m, { message := "Book not found", type := "error" }) := by
  have hf : a.books.find? (fun b => b.id == bookId) = none := by
    simp [List.find?_eq_none]
    exact h
  simp [CartManager.addToCart, hf]

/-- Witness for C9: the id "unknown-id" against the catalog of `loadBooks`. -/
theorem addToCart_unknown_witness :
    CartManager.addToCart (some loadedApp) { cart := [], stored := some "[]" } "unknown-id"
      = ({ cart := [], stored := some "[]" }, { message := "Book not found", type := "error" }) :=
  addToCart_unknown loadedApp { cart := [], stored := some "[]" } "unknown-id" (by decide)

/-! ## Catalog view: filters and search -/

/-- C4 as stated fails for the category "": a book whose category is the empty
string has `lowercase(category) = lowercase("")`, yet `filterByCategory("")`
leaves it out of the view. -/
theorem filterByCategory_empty_counterexample :
    (BookTreasuresApp.filterByCategory asciiLower
        { books := [{ itEndsWithUs with category := "" }], filteredBooks := [] }
        "").filteredBooks = [] ∧
    (BookTreasuresApp.filterByCategory asciiLower
        { books := [{ itEndsWithUs with category := "" }], filteredBooks := [] }
        "").filteredBooks
      ≠ [{ itEndsWithUs with category := "" }].filter
          (fun i => asciiLower i.category == asciiLower "") := by
  decide

/-- C4, amended: whatever the prior view, `filterByCategory(c)` makes the view
the whole source list when `c` is "all", and otherwise the sub-sequence of the
source, in source order, of the items whose category is not the empty string
and has `lowercase(category) = lowercase(c)`; the source list is untouched.
On categories "fiction", "Fiction", "nonfiction" the filter "fiction" keeps
the first two. -/
theorem filterByCategory_spec (toLowerCase : String → String) (app : BookTreasuresApp)
    (c : String) :
    (c = "all" →
      (BookTreasuresApp.filterByCategory toLowerCase app c).filteredBooks = app.books) ∧
    (c ≠ "all" →
      (BookTreasuresApp.filterByCategory toLowerCase app c).filteredBooks =
        app.books.filter (fun i =>
          decide (i.category ≠ "") && decide (toLowerCase i.category = toLowerCase c))) ∧
    (BookTreasuresApp.filterByCategory toLowerCase app c).books = app.books ∧
    (BookTreasuresApp.filterByCategory asciiLower
        { books := [{ itEndsWithUs with id := "a", category := "fiction" },
                    { itEndsWithUs with id := "b", category := "Fiction" },
                    { itEndsWithUs with id := "c", category := "nonfiction" }],
          filteredBooks := [] } "fiction").filteredBooks =
      [{ itEndsWithUs with id := "a", category := "fiction" },
       { itEndsWithUs with id := "b", category := "Fiction" }] := by
  refine ⟨?_, ?_, ?_, by decide⟩
  · intro h
    simp [BookTreasuresApp.filterByCategory, h]
  · intro h
    simp only [BookTreasuresApp.filterByCategory, h, if_false]
    congr 1
    funext i
    simp only [truthy, decide_not]
    rfl
  · unfold BookTreasuresApp.filterByCategory
    split_ifs <;> rfl

/-- Witness for C4: the filter "fiction" on the catalog of `loadBooks`. -/
theorem filterByCategory_spec_witness :
    (BookTreasuresApp.filterByCategory asciiLower loadedApp "fiction").filteredBooks =
      loadedApp.books.filter (fun i =>
        decide (i.category ≠ "") && decide (asciiLower i.category = asciiLower "fiction")) :=
  (filterByCategory_spec asciiLower loadedApp "fiction").2.1 (by decide)

theorem dropWhile_eq_nil_of_all (p : Char → Bool) (l : List Char) :
    l.dropWhile p = [] ↔ ∀ c ∈ l, p c = true := by
  induction l with
  | nil => simp
  | cons x xs ih =>
    by_cases hx : p x = true
    · simp [List.dropWhile, hx, ih]
    · simp [List.dropWhile, hx]

theorem dropWhile_head_not (p : Char → Bool) (l : List Char) (x : Char) (xs : List Char)
    (h : l.dropWhile p = x :: xs) : p x = false := by
  induction l with
  | nil => simp at h
  | cons y ys ih =>
    by_cases hy : p y = true
    · simp only [List.dropWhile, hy] at h
      exact ih h
    · simp only [List.dropWhile, hy] at h
      have := (List.cons.inj h).1
      subst this
      simpa using hy

theorem trim_falsy_iff (q : String) :
    truthy (trim q) = false ↔ ∀ c ∈ q.toList, isWhiteSpace c = true := by
  have h1 : truthy (trim q) = false ↔
      ((q.toList.dropWhile isWhiteSpace).reverse.dropWhile isWhiteSpace).reverse = [] := by
    unfold truthy trim
    rw [bne_eq_false_iff_eq]
    constructor
    · intro h
      have := congrArg String.toList h
      simpa using this
    · intro h
      rw [h]
  rw [h1, List.reverse_eq_nil_iff, dropWhile_eq_nil_of_all]
  constructor
  · intro h
    have h2 : ∀ c ∈ q.toList.dropWhile isWhiteSpace, isWhiteSpace c = true := by
      intro c hc
      exact h c (List.mem_reverse.2 hc)
    apply (dropWhile_eq_nil_of_all isWhiteSpace q.toList).1
    cases hd : q.toList.dropWhile isWhiteSpace with
    | nil => rfl
    | cons x xs =>
      have hx : isWhiteSpace x = true := h2 x (by rw [hd]; simp)
      rw [dropWhile_head_not isWhiteSpace q.toList x xs hd] at hx
      exact absurd hx (by simp)
  · intro h c hc
    rw [(dropWhile_eq_nil_of_all _ _).2 h] at hc
    simp at hc

theorem includesChars_iff (needle hay : List Char) :
    includesChars needle hay = true ↔ ∃ before after, hay = before ++ needle ++ after := by
  induction hay with
  | nil =>
    simp only [includesChars, List.isEmpty_iff]
    constructor
    · intro h; exact ⟨[], [], by simp [h]⟩
    · rintro ⟨b, a, h⟩
      have := congrArg List.length h
      simp at this
      exact List.length_eq_zero.1 (by omega)
  | cons c hay ih =>
    simp only [includesChars, Bool.or_eq_true, ih]
    constructor
    · rintro (h | ⟨b, a, h⟩)
      · obtain ⟨t, ht⟩ := List.isPrefixOf_iff_prefix.1 h
        exact ⟨[], t, by simp [ht]⟩
      · exact ⟨c :: b, a, by simp [h]⟩
    · rintro ⟨b, a, h⟩
      cases b with
      | nil =>
        left
        exact List.isPrefixOf_iff_prefix.2 ⟨a, by simp [h]⟩
      | cons x b =>
        right
        simp only [List.cons_append, List.cons.injEq] at h
        exact ⟨b, a, h.2⟩

theorem includes_iff (hay needle : String) :
    includes hay needle = true ↔ containsSubstring hay needle :=
  includesChars_iff needle.toList hay.toList

/-- C5: whatever the prior view, `performSearch(q)` makes the view the whole
source list when `q` is empty or only white space; otherwise it makes the view
the sub-sequence of the source, in source order, of the items whose lower-cased
title, author or category contains `lowercase(q)` as a contiguous substring.
The query "hoover" selects the book whose author is "Colleen Hoover" and not
one without that word. -/
theorem performSearch_spec (toLowerCase : String → String) (app : BookTreasuresApp)
    (q : String) :
    ((∀ c ∈ q.toList, isWhiteSpace c = true) →
      SearchManager.performSearch toLowerCase (some app) q
        = some { app with filteredBooks := app.books }) ∧
    ((∃ c ∈ q.toList, isWhiteSpace c = false) →
      ∃ selects : Book → Bool,
        (∀ i, selects i = true ↔
          (containsSubstring (toLowerCase i.title) (toLowerCase q) ∨
           containsSubstring (toLowerCase i.author) (toLowerCase q) ∨
           containsSubstring (toLowerCase i.category) (toLowerCase q))) ∧
        SearchManager.performSearch toLowerCase (some app) q
          = some { app with filteredBooks := app.books.filter selects }) ∧
    SearchManager.performSearch asciiLower (some twoBooks) "hoover"
      = some { twoBooks with filteredBooks := [itEndsWithUs] } := by
  refine ⟨?_, ?_, by decide⟩
  · intro h
    have ht : truthy (trim q) = false := (trim_falsy_iff q).2 h
    simp [SearchManager.performSearch, ht]
  · rintro ⟨c, hc, hws⟩
    have ht : truthy (trim q) = true := by
      cases hT : truthy (trim q) with
      | true => rfl
      | false =>
        have := (trim_falsy_iff q).1 hT c hc
        rw [hws] at this
        exact absurd this (by simp)
    refine ⟨fun book =>
      includes (toLowerCase book.title) (toLowerCase q) ||
      includes (toLowerCase book.author) (toLowerCase q) ||
      includes (toLowerCase book.category) (toLowerCase q), ?_, ?_⟩
    · intro i
      simp only [Bool.or_eq_true, includes_iff, or_assoc]
    · simp [SearchManager.performSearch, ht]

/-- Witness for C5: the query "hoover" against the catalog of `loadBooks`. -/
theorem performSearch_spec_witness :
    ∃ selects : Book → Bool,
      (∀ i, selects i = true ↔
        (containsSubstring (asciiLower i.title) (asciiLower "hoover") ∨
         containsSubstring (asciiLower i.author) (asciiLower "hoover") ∨
         containsSubstring (asciiLower i.category) (asciiLower "hoover"))) ∧
      SearchManager.performSearch asciiLower (some loadedApp) "hoover"
        = some { loadedApp with filteredBooks := loadedApp.books.filter selects } :=
  (performSearch_spec asciiLower loadedApp "hoover").2.1 ⟨'h', by decide, by decide⟩

/-- C6: `filterByCategory(c)` followed by `filterByPrice(maxPrice)` leaves the
same state as `filterByPrice(maxPrice)` alone: the view is the sub-sequence of
the full source list, in source order, of the items with
`extractPrice(price) <= maxPrice`. The category filter is discarded: with a
nonfiction book at 50 and a fiction book at 350, "fiction" followed by the
price limit 400 shows both books, not the fiction book alone. -/
theorem filterByPrice_after_filterByCategory (toLowerCase : String → String)
    (app : BookTreasuresApp) (c : String) (maxPrice : Int) :
    BookTreasuresApp.filterByPrice (BookTreasuresApp.filterByCategory toLowerCase app c)
        maxPrice
      = BookTreasuresApp.filterByPrice app maxPrice ∧
    (BookTreasuresApp.filterByPrice app maxPrice).filteredBooks
      = app.books.filter
          (fun i => decide (BookTreasuresApp.extractPrice i.price ≤ JsNum.fin maxPrice)) ∧
    (BookTreasuresApp.filterByPrice
        (BookTreasuresApp.filterByCategory asciiLower twoBooks "fiction") 400).filteredBooks
      = [sapiens, itEndsWithUs] := by
  refine ⟨?_, ?_, by decide!⟩
  · unfold BookTreasuresApp.filterByCategory BookTreasuresApp.filterByPrice
    split_ifs <;> rfl
  · show app.books.filter _ = app.books.filter _
    congr 1
    funext i
    exact Bool.decide_eq_true.symm

/-! ## The order of numbers -/

theorem jsLe_iff (a b : JsNum) : a ≤ b ↔ JsNum.le a b = true := Iff.rfl

theorem jsLe_antisymm {a b : JsNum} (h1 : a ≤ b) (h2 : b ≤ a) : a = b := by
  rw [jsLe_iff] at h1 h2
  cases a <;> cases b <;> simp [JsNum.le] at h1 h2 ⊢
  exact le_antisymm h1 h2

theorem jsLe_trans {a b c : JsNum} (h1 : a ≤ b) (h2 : b ≤ c) : a ≤ c := by
  rw [jsLe_iff] at h1 h2 ⊢
  cases a <;> cases b <;> cases c <;> simp [JsNum.le] at h1 h2 ⊢
  exact le_trans h1 h2

/-- The values `extractPrice` takes: a natural number or `Infinity`. -/
theorem roundNat_forms (n : Nat) :
    roundNat n = JsNum.posInf ∨ ∃ k : Nat, roundNat n = JsNum.fin k := by
  unfold roundNat
  split_ifs
  · exact Or.inl rfl
  · exact Or.inr ⟨_, rfl⟩

theorem priceValue_le_total (a b : JsNum)
    (ha : a = JsNum.posInf ∨ ∃ k : Nat, a = JsNum.fin k)
    (hb : b = JsNum.posInf ∨ ∃ k : Nat, b = JsNum.fin k) : a ≤ b ∨ b ≤ a := by
  simp only [jsLe_iff]
  rcases ha with rfl | ⟨j, rfl⟩ <;> rcases hb with rfl | ⟨k, rfl⟩ <;> simp [JsNum.le]
  exact le_total j k

theorem notAfter_roundInt (z : Int) : notAfter (roundInt z) = true ↔ z ≤ 0 := by
  unfold roundInt
  split_ifs with h0
  · unfold roundNat
    split_ifs with hbig
    · have hz : z.toNat ≠ 0 := by
        intro h
        rw [h, nearest53_zero] at hbig
        revert hbig
        decide
      simp only [notAfter, JsNum.le]
      constructor
      · intro h
        exact absurd h (by simp)
      · intro h
        omega
    · simp only [notAfter, JsNum.le, decide_eq_true_eq]
      constructor
      · intro h
        have h1 : ((nearest53 z.toNat : Nat) : Rat) ≤ ((0 : Nat) : Rat) := h
        have h2 : nearest53 z.toNat ≤ 0 := by exact_mod_cast h1
        by_contra hz
        have := nearest53_pos z.toNat (by omega)
        omega
      · intro h
        have hz : z.toNat = 0 := by omega
        rw [hz, nearest53_zero]
  · have hneg : z ≤ 0 := by omega
    simp only [hneg, iff_true]
    unfold roundNat
    split_ifs with hbig
    · rfl
    · simp only [JsNum.neg, notAfter, JsNum.le, decide_eq_true_eq]
      show -((nearest53 z.natAbs : Nat) : Rat) ≤ ((0 : Nat) : Rat)
      have : (0 : Rat) ≤ ((nearest53 z.natAbs : Nat) : Rat) := Nat.cast_nonneg _
      simp only [Nat.cast_zero]
      linarith

theorem notAfter_sub_priceValue (a b : JsNum)
    (ha : a = JsNum.posInf ∨ ∃ k : Nat, a = JsNum.fin k)
    (hb : b = JsNum.posInf ∨ ∃ k : Nat, b = JsNum.fin k) :
    notAfter (JsNum.sub a b) = true ↔ a ≤ b := by
  rw [jsLe_iff]
  rcases ha with rfl | ⟨j, rfl⟩ <;> rcases hb with rfl | ⟨k, rfl⟩
  · simp [JsNum.sub, JsNum.neg, JsNum.add, notAfter, JsNum.le]
  · simp [JsNum.sub, JsNum.neg, JsNum.add, notAfter, JsNum.le]
  · simp [JsNum.sub, JsNum.neg, JsNum.add, notAfter, JsNum.le]
  · have hsub : JsNum.sub (JsNum.fin j) (JsNum.fin k) = roundInt ((j : Int) - (k : Int)) := by
      show roundRat ((j : Rat) + -(k : Rat)) = _
      rw [← roundRat_intCast]
      congr 1
      push_cast
      ring
    rw [hsub, notAfter_roundInt]
    simp only [JsNum.le, decide_eq_true_eq, Nat.cast_le]
    omega

theorem parsedPrice_forms (book : Book) :
    book.parsedPrice = JsNum.posInf ∨ ∃ k : Nat, book.parsedPrice = JsNum.fin k := by
  unfold Book.parsedPrice
  rw [app_extractPrice_eq_roundNat]
  exact roundNat_forms _

/-! ## Sorting the view -/

section StableSort

variable {α : Type} (cmp : α → α → JsNum)

theorem insertSorted_perm (a : α) (l : List α) : (insertSorted cmp a l).Perm (a :: l) := by
  induction l with
  | nil => exact List.Perm.refl _
  | cons b l ih =>
    unfold insertSorted
    split_ifs with h
    · exact List.Perm.refl _
    · exact (ih.cons b).trans (List.Perm.swap a b l)

theorem stableSort_perm (l : List α) : (stableSort cmp l).Perm l := by
  induction l with
  | nil => exact List.Perm.refl _
  | cons a l ih =>
    unfold stableSort
    exact (insertSorted_perm cmp a _).trans (ih.cons a)

theorem mem_insertSorted (a y : α) (l : List α) :
    y ∈ insertSorted cmp a l ↔ y = a ∨ y ∈ l := by
  rw [(insertSorted_perm cmp a l).mem_iff, List.mem_cons]

theorem insertSorted_pairwise
    (htot : ∀ a b, notAfter (cmp a b) = true ∨ notAfter (cmp b a) = true)
    (htr : ∀ a b c, notAfter (cmp a b) = true → notAfter (cmp b c) = true →
      notAfter (cmp a c) = true) (a : α) (l : List α)
    (hl : l.Pairwise (fun x y => notAfter (cmp x y) = true)) :
    (insertSorted cmp a l).Pairwise (fun x y => notAfter (cmp x y) = true) := by
  induction l with
  | nil => simp [insertSorted]
  | cons b l ih =>
    obtain ⟨hb, hl2⟩ := List.pairwise_cons.1 hl
    unfold insertSorted
    split_ifs with h
    · refine List.pairwise_cons.2 ⟨?_, hl⟩
      intro y hy
      rcases List.mem_cons.1 hy with rfl | hy
      · exact h
      · exact htr a b y h (hb y hy)
    · refine List.pairwise_cons.2 ⟨?_, ih hl2⟩
      intro y hy
      rcases (mem_insertSorted cmp a y l).1 hy with rfl | hy
      · rcases htot b y with h1 | h1
        · exact h1
        · exact absurd h1 h
      · exact hb y hy

theorem stableSort_pairwise
    (htot : ∀ a b, notAfter (cmp a b) = true ∨ notAfter (cmp b a) = true)
    (htr : ∀ a b c, notAfter (cmp a b) = true → notAfter (cmp b c) = true →
      notAfter (cmp a c) = true) (l : List α) :
    (stableSort cmp l).Pairwise (fun x y => notAfter (cmp x y) = true) := by
  induction l with
  | nil => simp [stableSort]
  | cons a l ih =>
    unfold stableSort
    exact insertSorted_pairwise cmp htot htr a _ ih

theorem insertSorted_filter_pos (p : α → Bool) (a : α) (l : List α) (ha : p a = true)
    (hp : ∀ b, p b = true → notAfter (cmp a b) = true) :
    (insertSorted cmp a l).filter p = a :: l.filter p := by
  induction l with
  | nil => simp [insertSorted, ha]
  | cons b l ih =>
    unfold insertSorted
    split_ifs with h
    · simp [List.filter_cons, ha]
    · have hb : p b = false := by
        cases hpb : p b with
        | false => rfl
        | true => exact absurd (hp b hpb) h
      simp [List.filter_cons, hb, ih]

theorem insertSorted_filter_neg (p : α → Bool) (a : α) (l : List α) (ha : p a = false) :
    (insertSorted cmp a l).filter p = l.filter p := by
  induction l with
  | nil => simp [insertSorted, ha]
  | cons b l ih =>
    unfold insertSorted
    split_ifs with h
    · simp [List.filter_cons, ha]
    · simp [List.filter_cons, ih]

theorem stableSort_filter (p : α → Bool)
    (hp : ∀ a b, p a = true → p b = true → notAfter (cmp a b) = true) (l : List α) :
    (stableSort cmp l).filter p = l.filter p := by
  induction l with
  | nil => simp [stableSort]
  | cons a l ih =>
    unfold stableSort
    cases ha : p a with
    | true =>
      rw [insertSorted_filter_pos cmp p a _ ha (fun b hb => hp a b ha hb), ih]
      simp [List.filter_cons, ha]
    | false =>
      rw [insertSorted_filter_neg cmp p a _ ha, ih]
      simp [List.filter_cons, ha]

theorem insertSorted_of_all_gt (a : α) (l : List α)
    (h : ∀ b ∈ l, notAfter (cmp a b) = false) :
    insertSorted cmp a l = l ++ [a] := by
  induction l with
  | nil => simp [insertSorted]
  | cons b l ih =>
    have hb : notAfter (cmp a b) = false := h b (by simp)
    simp [insertSorted, hb, ih (fun x hx => h x (List.mem_cons_of_mem _ hx))]

theorem stableSort_reverse_of_pairwise (l : List α)
    (h : l.Pairwise (fun x y => notAfter (cmp x y) = false)) :
    stableSort cmp l = l.reverse := by
  induction l with
  | nil => simp [stableSort]
  | cons a l ih =>
    obtain ⟨ha, hl⟩ := List.pairwise_cons.1 h
    unfold stableSort
    rw [ih hl, insertSorted_of_all_gt cmp a l.reverse
      (fun b hb => ha b (List.mem_reverse.1 hb)), List.reverse_cons]

end StableSort

theorem pair_reversed_of_sorted {α : Type} (key : α → JsNum) (low high : List α)
    (hperm : high.Perm low) (hlow : low.Pairwise (fun x y => key x ≤ key y))
    (hhigh : high.Pairwise (fun x y => key y ≤ key x)) (x y : α)
    (hxy : [x, y].Sublist low) (hne : key x ≠ key y) : [y, x].Sublist high := by
  have hle : key x ≤ key y := List.pairwise_iff_forall_sublist.1 hlow hxy
  have hx : x ∈ high := hperm.mem_iff.2 (hxy.subset (by simp))
  have hy : y ∈ high := hperm.mem_iff.2 (hxy.subset (by simp))
  obtain ⟨s, t, hst⟩ := List.append_of_mem hx
  rw [hst] at hy hhigh ⊢
  rcases List.mem_append.1 hy with hys | hyt
  · obtain ⟨s1, s2, hs⟩ := List.append_of_mem hys
    rw [hs]
    have : [y, x].Sublist ((s1 ++ y :: s2) ++ x :: t) := by
      rw [List.append_assoc]
      refine List.Sublist.trans ?_ (List.sublist_append_right s1 _)
      rw [List.cons_append]
      refine List.Sublist.cons₂ y ?_
      refine List.Sublist.trans ?_ (List.sublist_append_right s2 _)
      exact List.Sublist.cons₂ x (List.nil_sublist _)
    exact this
  · rcases List.mem_cons.1 hyt with rfl | hyt
    · exact absurd rfl hne
    · have h1 := (List.pairwise_append.1 hhigh).2.1
      have h2 := (List.pairwise_cons.1 h1).1 y hyt
      exact absurd (jsLe_antisymm hle h2) hne

theorem sortBooks_price_low (cmpRating cmpName : Book → Book → JsNum) (app : BookTreasuresApp) :
    BookTreasuresApp.sortBooks cmpRating cmpName app "price-low"
      = { app with filteredBooks :=
            stableSort (fun a b => JsNum.sub a.parsedPrice b.parsedPrice) app.filteredBooks } := by
  simp [BookTreasuresApp.sortBooks, Book.parsedPrice]

theorem sortBooks_price_high (cmpRating cmpName : Book → Book → JsNum) (app : BookTreasuresApp) :
    BookTreasuresApp.sortBooks cmpRating cmpName app "price-high"
      = { app with filteredBooks :=
            stableSort (fun a b => JsNum.sub b.parsedPrice a.parsedPrice) app.filteredBooks } := by
  simp [BookTreasuresApp.sortBooks, Book.parsedPrice]

/-- C7: for every view, `sortBooks('price-low')` and then `sortBooks('price-high')`
both give permutations of the view, the first ascending and the second
descending by parsed price; two items with distinct parsed prices come out of
the second sort in the reverse of the order the first sort gave them, and when
all parsed prices are distinct the second result is exactly the reverse of the
first; items with equal parsed prices keep, in each sort, the relative order
they had before it. -/
theorem sortBooks_low_then_high (cmpRating cmpName : Book → Book → JsNum)
    (app : BookTreasuresApp) :
    (BookTreasuresApp.sortBooks cmpRating cmpName app "price-low").filteredBooks.Perm
      app.filteredBooks ∧
    (BookTreasuresApp.sortBooks cmpRating cmpName
      (BookTreasuresApp.sortBooks cmpRating cmpName app "price-low")
      "price-high").filteredBooks.Perm app.filteredBooks ∧
    (BookTreasuresApp.sortBooks cmpRating cmpName app "price-low").filteredBooks.Pairwise
      (fun x y => x.parsedPrice ≤ y.parsedPrice) ∧
    (BookTreasuresApp.sortBooks cmpRating cmpName
      (BookTreasuresApp.sortBooks cmpRating cmpName app "price-low")
      "price-high").filteredBooks.Pairwise (fun x y => y.parsedPrice ≤ x.parsedPrice) ∧
    (∀ x y : Book,
      [x, y].Sublist
        (BookTreasuresApp.sortBooks cmpRating cmpName app "price-low").filteredBooks →
      x.parsedPrice ≠ y.parsedPrice →
      [y, x].Sublist
        (BookTreasuresApp.sortBooks cmpRating cmpName
          (BookTreasuresApp.sortBooks cmpRating cmpName app "price-low")
          "price-high").filteredBooks) ∧
    ((app.filteredBooks.map Book.parsedPrice).Nodup →
      (BookTreasuresApp.sortBooks cmpRating cmpName
        (BookTreasuresApp.sortBooks cmpRating cmpName app "price-low")
        "price-high").filteredBooks
      = (BookTreasuresApp.sortBooks cmpRating cmpName app
          "price-low").filteredBooks.reverse) ∧
    (∀ p : JsNum,
      (BookTreasuresApp.sortBooks cmpRating cmpName
        (BookTreasuresApp.sortBooks cmpRating cmpName app "price-low")
        "price-high").filteredBooks.filter (fun i => i.parsedPrice == p)
      = (BookTreasuresApp.sortBooks cmpRating cmpName app
          "price-low").filteredBooks.filter (fun i => i.parsedPrice == p)) ∧
    (∀ p : JsNum,
      (BookTreasuresApp.sortBooks cmpRating cmpName app
        "price-low").filteredBooks.filter (fun i => i.parsedPrice == p)
      = app.filteredBooks.filter (fun i => i.parsedPrice == p)) ∧
    (BookTreasuresApp.sortBooks cmpRating cmpName
      (BookTreasuresApp.sortBooks cmpRating cmpName
        { books := [], filteredBooks := [itEndsWithUs, sapiens, verity] } "price-low")
      "price-high").filteredBooks = [itEndsWithUs, verity, sapiens] := by
  have hcmp : ∀ a b : Book,
      notAfter (JsNum.sub a.parsedPrice b.parsedPrice) = true ↔ a.parsedPrice ≤ b.parsedPrice :=
    fun a b => notAfter_sub_priceValue _ _ (parsedPrice_forms a) (parsedPrice_forms b)
  have htot : ∀ a b : Book, a.parsedPrice ≤ b.parsedPrice ∨ b.parsedPrice ≤ a.parsedPrice :=
    fun a b => priceValue_le_total _ _ (parsedPrice_forms a) (parsedPrice_forms b)
  have hlowP := stableSort_perm (fun a b : Book => JsNum.sub a.parsedPrice b.parsedPrice)
    app.filteredBooks
  have hhighP := stableSort_perm (fun a b : Book => JsNum.sub b.parsedPrice a.parsedPrice)
    (stableSort (fun a b : Book => JsNum.sub a.parsedPrice b.parsedPrice) app.filteredBooks)
  have hlowS : (stableSort (fun a b : Book => JsNum.sub a.parsedPrice b.parsedPrice)
      app.filteredBooks).Pairwise (fun x y => x.parsedPrice ≤ y.parsedPrice) := by
    refine (stableSort_pairwise (fun a b : Book => JsNum.sub a.parsedPrice b.parsedPrice)
      (fun a b => ?_) (fun a b c h1 h2 => ?_) app.filteredBooks).imp ?_
    · rcases htot a b with h | h
      · exact Or.inl ((hcmp a b).2 h)
      · exact Or.inr ((hcmp b a).2 h)
    · exact (hcmp a c).2 (jsLe_trans ((hcmp a b).1 h1) ((hcmp b c).1 h2))
    · exact fun h => (hcmp _ _).1 h
  have hhighS : (stableSort (fun a b : Book => JsNum.sub b.parsedPrice a.parsedPrice)
      (stableSort (fun a b : Book => JsNum.sub a.parsedPrice b.parsedPrice)
        app.filteredBooks)).Pairwise (fun x y => y.parsedPrice ≤ x.parsedPrice) := by
    refine (stableSort_pairwise (fun a b : Book => JsNum.sub b.parsedPrice a.parsedPrice)
      (fun a b => ?_) (fun a b c h1 h2 => ?_) _).imp ?_
    · rcases htot b a with h | h
      · exact Or.inl ((hcmp b a).2 h)
      · exact Or.inr ((hcmp a b).2 h)
    · exact (hcmp c a).2 (jsLe_trans ((hcmp c b).1 h2) ((hcmp b a).1 h1))
    · exact fun h => (hcmp _ _).1 h
  simp only [sortBooks_price_low, sortBooks_price_high]
  refine ⟨hlowP, hhighP.trans hlowP, hlowS, hhighS, ?_, ?_, ?_, ?_, ?_⟩
  · intro x y hxy hne
    exact pair_reversed_of_sorted Book.parsedPrice _ _ hhighP hlowS hhighS x y hxy hne
  · intro hnd
    apply stableSort_reverse_of_pairwise
    have hnd2 : ((stableSort (fun a b : Book => JsNum.sub a.parsedPrice b.parsedPrice)
        app.filteredBooks).map Book.parsedPrice).Nodup :=
      ((hlowP.map Book.parsedPrice).nodup_iff).2 hnd
    have hne := List.pairwise_map.1 hnd2
    refine (hlowS.and hne).imp ?_
    intro x y h
    cases hn : notAfter (JsNum.sub y.parsedPrice x.parsedPrice) with
    | false => rfl
    | true => exact absurd (jsLe_antisymm h.1 ((hcmp y x).1 hn)) h.2
  · intro p
    apply stableSort_filter
    intro a b ha hb
    simp only [beq_iff_eq] at ha hb
    refine (hcmp b a).2 ?_
    rw [ha, hb]
    rcases htot a a with h | h <;> rw [ha] at h <;> exact h
  · intro p
    apply stableSort_filter
    intro a b ha hb
    simp only [beq_iff_eq] at ha hb
    refine (hcmp a b).2 ?_
    rw [ha, hb]
    rcases htot a a with h | h <;> rw [ha] at h <;> exact h
  · decide!

/-- Witness for C7: on a view with two distinct parsed prices the second sort
gives the reverse of the first. -/
theorem sortBooks_low_then_high_witness :
    (BookTreasuresApp.sortBooks (fun _ _ => 0) (fun _ _ => 0)
      (BookTreasuresApp.sortBooks (fun _ _ => 0) (fun _ _ => 0)
        { books := [], filteredBooks := [itEndsWithUs, sapiens] } "price-low")
      "price-high").filteredBooks
    = (BookTreasuresApp.sortBooks (fun _ _ => 0) (fun _ _ => 0)
        { books := [], filteredBooks := [itEndsWithUs, sapiens] }
        "price-low").filteredBooks.reverse :=
  (sortBooks_low_then_high (fun _ _ => 0) (fun _ _ => 0)
    { books := [], filteredBooks := [itEndsWithUs, sapiens] }).2.2.2.2.2.1 (by decide!)

/-! ## The JSON reader never runs out of budget -/

theorem skipSpace_length_le (l : List Char) : (skipSpace l).length ≤ l.length :=
  (List.dropWhile_sublist isJsonSpace).length_le

theorem readString_length (n : Nat) :
    ∀ (l : List Char) (pending : Option Nat) (acc : List Char) (s : String) (r : List Char),
      l.length ≤ n → readString l pending acc = some (s, r) → r.length < l.length := by
  induction n with
  | zero =>
    intro l pending acc s r hl h
    have : l = [] := List.length_eq_zero.1 (by omega)
    subst this
    simp [readString] at h
  | succ n ih =>
    intro l pending acc s r hl h
    match l, hl, h with
    | [], _, h => simp [readString] at h
    | c :: t, hl, h =>
      unfold readString at h
      simp only [List.length_cons] at hl ⊢
      split_ifs at h with h1 h2 h3
      · simp only [Option.some.injEq, Prod.mk.injEq] at h
        rw [← h.2]
        omega
      · match t, hl, h with
        | [], _, h => simp at h
        | e :: t1, hl, h =>
          simp only [List.length_cons] at hl ⊢
          simp only at h
          split_ifs at h with h4
          · match t1, hl, h with
            | h1 :: h2 :: h3 :: h4 :: t2, hl, h =>
              simp only [List.length_cons] at hl ⊢
              simp only at h
              split at h
              · have := ih t2 _ _ s r (by omega) h
                omega
              · simp at h
            | [], _, h => simp at h
            | [_], _, h => simp at h
            | [_, _], _, h => simp at h
            | [_, _, _], _, h => simp at h
          · split at h
            · have := ih t1 _ _ s r (by omega) h
              omega
            · simp at h
      · have := ih t _ _ s r (by omega) h
        omega

theorem readFraction_length (l frac r : List Char) (h : readFraction l = some (frac, r)) :
    r.length ≤ l.length := by
  cases l with
  | nil =>
    simp only [readFraction, Option.some.injEq, Prod.mk.injEq] at h
    rw [← h.2]
  | cons c t =>
    simp only [readFraction] at h
    split_ifs at h with h1 h2
    · simp only [Option.some.injEq, Prod.mk.injEq] at h
      rw [← h.2]
      have := (List.dropWhile_sublist (l := t) isAsciiDigit).length_le
      simp only [List.length_cons]
      omega
    · simp only [Option.some.injEq, Prod.mk.injEq] at h
      rw [← h.2]

theorem stripSign_length (l : List Char) : (stripSign l).2.length ≤ l.length := by
  cases l with
  | nil => simp [stripSign]
  | cons c t =>
    simp only [stripSign]
    split_ifs <;> simp

theorem readExponent_length (l r : List Char) (e : Int) (h : readExponent l = some (e, r)) :
    r.length ≤ l.length := by
  cases l with
  | nil =>
    simp only [readExponent, Option.some.injEq, Prod.mk.injEq] at h
    rw [← h.2]
  | cons c t =>
    simp only [readExponent] at h
    split_ifs at h with h1 h2
    · simp only [Option.some.injEq, Prod.mk.injEq] at h
      rw [← h.2]
      have h3 := (List.dropWhile_sublist (l := (stripSign t).2) isAsciiDigit).length_le
      have h4 := stripSign_length t
      simp only [List.length_cons]
      omega
    · simp only [Option.some.injEq, Prod.mk.injEq] at h
      rw [← h.2]

theorem readUnsigned_length (l r : List Char) (n : JsNum) (h : readUnsigned l = some (n, r)) :
    r.length < l.length := by
  cases l with
  | nil => simp [readUnsigned] at h
  | cons d t =>
    have h5 : (if d = '0' then t else List.dropWhile isAsciiDigit t).length ≤ t.length := by
      split_ifs
      · exact le_refl _
      · exact (List.dropWhile_sublist (l := t) isAsciiDigit).length_le
    simp only [readUnsigned] at h
    generalize (if d = '0' then t else List.dropWhile isAsciiDigit t) = x at h h5
    generalize (if d = '0' then [d] else d :: List.takeWhile isAsciiDigit t) = ds at h
    by_cases h1 : (!isAsciiDigit d) = true
    · simp [h1] at h
    · simp only [h1] at h
      cases hfrac : readFraction x with
      | none => simp [hfrac] at h
      | some p =>
        obtain ⟨frac, r2⟩ := p
        cases hexp : readExponent r2 with
        | none => simp [hfrac, hexp] at h
        | some pe =>
          obtain ⟨e, r3⟩ := pe
          simp only [hfrac, hexp, Bool.false_eq_true, if_false, Option.some.injEq,
            Prod.mk.injEq] at h
          rw [← h.2]
          have h2 := readFraction_length _ _ _ hfrac
          have h3 := readExponent_length _ _ _ hexp
          simp only [List.length_cons]
          omega

theorem readNumber_length (l r : List Char) (n : JsNum) (h : readNumber l = some (n, r)) :
    r.length < l.length := by
  cases l with
  | nil => simp [readNumber] at h
  | cons c t =>
    simp only [readNumber] at h
    split_ifs at h with h1
    · cases hu : readUnsigned t with
      | none => simp [hu] at h
      | some p =>
        obtain ⟨m, r2⟩ := p
        simp only [hu, Option.map_some', Option.some.injEq, Prod.mk.injEq] at h
        have := readUnsigned_length t r2 m hu
        rw [← h.2]
        simp only [List.length_cons]
        omega
    · exact readUnsigned_length _ _ _ h

theorem readWord_length (word : String) (l r : List Char) (hw : 0 < word.length)
    (h : readWord word l = some r) : r.length < l.length := by
  simp only [readWord] at h
  split_ifs at h with h1
  simp only [Option.some.injEq] at h
  rw [← h, List.length_drop]
  have h2 := (List.isPrefixOf_iff_prefix.1 h1).length_le
  have h3 : word.toList.length = word.length := rfl
  omega

theorem readElements_step (f : Nat)
    (hV : ∀ l : List Char,
      (2 * l.length + 1 ≤ f → readValue f l ≠ .error .outOfFuel) ∧
      (∀ v r, readValue f l = .ok (v, r) → r.length < l.length))
    (hE : ∀ (l : List Char) (acc : List Json),
      (2 * l.length + 2 ≤ f → readElements f l acc ≠ .error .outOfFuel) ∧
      (∀ v r, readElements f l acc = .ok (v, r) → r.length < l.length))
    (l : List Char) (acc : List Json) :
    (2 * l.length + 2 ≤ f + 1 → readElements (f + 1) l acc ≠ .error .outOfFuel) ∧
    (∀ v r, readElements (f + 1) l acc = .ok (v, r) → r.length < l.length) := by
  rw [readElements]
  cases hv : readValue f l with
  | error e =>
    refine ⟨?_, ?_⟩
    · intro hf
      have := (hV l).1 (by omega)
      rw [hv] at this
      simpa using this
    · intro v r h
      simp at h
  | ok p =>
    obtain ⟨v, r⟩ := p
    have hr := (hV l).2 v r hv
    have hs := skipSpace_length_le r
    simp only
    cases hsk : skipSpace r with
    | nil => simp
    | cons c r1 =>
      rw [hsk] at hs
      simp only [List.length_cons] at hs
      simp only
      split_ifs with h1 h2
      · refine ⟨?_, ?_⟩
        · intro hf
          exact (hE r1 (v :: acc)).1 (by omega)
        · intro v2 r2 h
          have := (hE r1 (v :: acc)).2 v2 r2 h
          omega
      · refine ⟨by simp, ?_⟩
        intro v2 r2 h
        simp only [Except.ok.injEq, Prod.mk.injEq] at h
        rw [← h.2]
        omega
      · simp

theorem readMembers_step (f : Nat)
    (hV : ∀ l : List Char,
      (2 * l.length + 1 ≤ f → readValue f l ≠ .error .outOfFuel) ∧
      (∀ v r, readValue f l = .ok (v, r) → r.length < l.length))
    (hM : ∀ (l : List Char) (acc : List (String × Json)),
      (2 * l.length + 2 ≤ f → readMembers f l acc ≠ .error .outOfFuel) ∧
      (∀ v r, readMembers f l acc = .ok (v, r) → r.length < l.length))
    (l : List Char) (acc : List (String × Json)) :
    (2 * l.length + 2 ≤ f + 1 → readMembers (f + 1) l acc ≠ .error .outOfFuel) ∧
    (∀ v r, readMembers (f + 1) l acc = .ok (v, r) → r.length < l.length) := by
  rw [readMembers]
  have hs := skipSpace_length_le l
  cases hsk : skipSpace l with
  | nil => simp
  | cons c r =>
    rw [hsk] at hs
    simp only [List.length_cons] at hs
    simp only
    split_ifs with h1
    · cases hstr : readString r none [] with
      | none => simp
      | some p =>
        obtain ⟨k, r1⟩ := p
        have hr1 := readString_length r.length r none [] k r1 (le_refl _) hstr
        have hs1 := skipSpace_length_le r1
        simp only
        cases hsk1 : skipSpace r1 with
        | nil => simp
        | cons d r2 =>
          rw [hsk1] at hs1
          simp only [List.length_cons] at hs1
          simp only
          split_ifs with h2
          · cases hv : readValue f r2 with
            | error e =>
              refine ⟨?_, by simp⟩
              intro hf
              have := (hV r2).1 (by omega)
              rw [hv] at this
              simpa using this
            | ok pv =>
              obtain ⟨v, r3⟩ := pv
              have hr3 := (hV r2).2 v r3 hv
              have hs3 := skipSpace_length_le r3
              simp only
              cases hsk3 : skipSpace r3 with
              | nil => simp
              | cons e r4 =>
                rw [hsk3] at hs3
                simp only [List.length_cons] at hs3
                simp only
                split_ifs with h3 h4
                · refine ⟨?_, ?_⟩
                  · intro hf
                    exact (hM r4 ((k, v) :: acc)).1 (by omega)
                  · intro v2 r5 h
                    have := (hM r4 ((k, v) :: acc)).2 v2 r5 h
                    omega
                · refine ⟨by simp, ?_⟩
                  intro v2 r5 h
                  simp only [Except.ok.injEq, Prod.mk.injEq] at h
                  rw [← h.2]
                  omega
                · simp
          · simp
    · simp

theorem readValue_step (f : Nat)
    (hE : ∀ (l : List Char) (acc : List Json),
      (2 * l.length + 2 ≤ f → readElements f l acc ≠ .error .outOfFuel) ∧
      (∀ v r, readElements f l acc = .ok (v, r) → r.length < l.length))
    (hM : ∀ (l : List Char) (acc : List (String × Json)),
      (2 * l.length + 2 ≤ f → readMembers f l acc ≠ .error .outOfFuel) ∧
      (∀ v r, readMembers f l acc = .ok (v, r) → r.length < l.length))
    (l : List Char) :
    (2 * l.length + 1 ≤ f + 1 → readValue (f + 1) l ≠ .error .outOfFuel) ∧
    (∀ v r, readValue (f + 1) l = .ok (v, r) → r.length < l.length) := by
  rw [readValue]
  have hs := skipSpace_length_le l
  cases hsk : skipSpace l with
  | nil => simp
  | cons c r =>
    rw [hsk] at hs
    simp only [List.length_cons] at hs
    simp only
    have hs1 := skipSpace_length_le r
    split_ifs with h1 h2 h3 h4 h5 h6
    · cases hsk1 : skipSpace r with
      | nil => simp
      | cons d r1 =>
        rw [hsk1] at hs1
        simp only [List.length_cons] at hs1
        simp only
        split_ifs with h7
        · refine ⟨by simp, ?_⟩
          intro v2 r5 h
          simp only [Except.ok.injEq, Prod.mk.injEq] at h
          rw [← h.2]
          omega
        · refine ⟨?_, ?_⟩
          · intro hf
            exact (hE (d :: r1) []).1 (by simp only [List.length_cons]; omega)
          · intro v2 r5 h
            have := (hE (d :: r1) []).2 v2 r5 h
            simp only [List.length_cons] at this
            omega
    · cases hsk1 : skipSpace r with
      | nil => simp
      | cons d r1 =>
        rw [hsk1] at hs1
        simp only [List.length_cons] at hs1
        simp only
        split_ifs with h7
        · refine ⟨by simp, ?_⟩
          intro v2 r5 h
          simp only [Except.ok.injEq, Prod.mk.injEq] at h
          rw [← h.2]
          omega
        · refine ⟨?_, ?_⟩
          · intro hf
            exact (hM (d :: r1) []).1 (by simp only [List.length_cons]; omega)
          · intro v2 r5 h
            have := (hM (d :: r1) []).2 v2 r5 h
            simp only [List.length_cons] at this
            omega
    · cases hstr : readString r none [] with
      | none => simp
      | some p =>
        obtain ⟨k, r1⟩ := p
        have hr1 := readString_length r.length r none [] k r1 (le_refl _) hstr
        refine ⟨by simp, ?_⟩
        intro v2 r5 h
        simp only [Except.ok.injEq, Prod.mk.injEq] at h
        rw [← h.2]
        omega
    · cases hw : readWord "null" (c :: r) with
      | none => simp
      | some r1 =>
        have hr1 := readWord_length "null" (c :: r) r1 (by decide) hw
        simp only [List.length_cons] at hr1
        refine ⟨by simp, ?_⟩
        intro v2 r5 h
        simp only [Except.ok.injEq, Prod.mk.injEq] at h
        rw [← h.2]
        omega
    · cases hw : readWord "true" (c :: r) with
      | none => simp
      | some r1 =>
        have hr1 := readWord_length "true" (c :: r) r1 (by decide) hw
        simp only [List.length_cons] at hr1
        refine ⟨by simp, ?_⟩
        intro v2 r5 h
        simp only [Except.ok.injEq, Prod.mk.injEq] at h
        rw [← h.2]
        omega
    · cases hw : readWord "false" (c :: r) with
      | none => simp
      | some r1 =>
        have hr1 := readWord_length "false" (c :: r) r1 (by decide) hw
        simp only [List.length_cons] at hr1
        refine ⟨by simp, ?_⟩
        intro v2 r5 h
        simp only [Except.ok.injEq, Prod.mk.injEq] at h
        rw [← h.2]
        omega
    · cases hn : readNumber (c :: r) with
      | none => simp
      | some p =>
        obtain ⟨n, r1⟩ := p
        have hr1 := readNumber_length (c :: r) r1 n hn
        simp only [List.length_cons] at hr1
        refine ⟨by simp, ?_⟩
        intro v2 r5 h
        simp only [Except.ok.injEq, Prod.mk.injEq] at h
        rw [← h.2]
        omega

theorem read_progress (f : Nat) :
    (∀ l : List Char,
      (2 * l.length + 1 ≤ f → readValue f l ≠ .error .outOfFuel) ∧
      (∀ v r, readValue f l = .ok (v, r) → r.length < l.length)) ∧
    (∀ (l : List Char) (acc : List Json),
      (2 * l.length + 2 ≤ f → readElements f l acc ≠ .error .outOfFuel) ∧
      (∀ v r, readElements f l acc = .ok (v, r) → r.length < l.length)) ∧
    (∀ (l : List Char) (acc : List (String × Json)),
      (2 * l.length + 2 ≤ f → readMembers f l acc ≠ .error .outOfFuel) ∧
      (∀ v r, readMembers f l acc = .ok (v, r) → r.length < l.length)) := by
  induction f with
  | zero =>
    refine ⟨fun l => ⟨by omega, ?_⟩, fun l acc => ⟨by omega, ?_⟩, fun l acc => ⟨by omega, ?_⟩⟩
    · intro v r h
      simp [readValue] at h
    · intro v r h
      simp [readElements] at h
    · intro v r h
      simp [readMembers] at h
  | succ f ih =>
    exact ⟨readValue_step f ih.2.1 ih.2.2, readElements_step f ih.1 ih.2.1,
      readMembers_step f ih.1 ih.2.2⟩

/-- The reader of `JSON.parse` never stops for lack of budget: a failure always
means that the text is not JSON. -/
theorem jsonParse_error (text : String) (e : ParseFail) (h : jsonParse text = .error e) :
    e = ParseFail.malformed := by
  have hfuel := (read_progress (2 * text.length + 2)).1 text.toList |>.1
    (by have : text.toList.length = text.length := rfl
        omega)
  unfold jsonParse at h
  cases hv : readValue (2 * text.length + 2) text.toList with
  | error e2 =>
    rw [hv] at h hfuel
    simp only [Except.error.injEq] at h
    subst h
    cases e2 with
    | malformed => rfl
    | outOfFuel => exact absurd rfl hfuel
  | ok p =>
    obtain ⟨v, rest⟩ := p
    rw [hv] at h
    simp only at h
    split at h
    · simp at h
    · simp only [Except.error.injEq] at h
      exact h.symm

/-! ## Restoring the cart -/

theorem jsonParse_emptyList : jsonParse "[]" = Except.ok (Json.arr []) := by
  rfl

theorem storedOrEmptyList_of_nonempty (s : String) (h : s ≠ "") :
    storedOrEmptyList (some s) = s := by
  simp [storedOrEmptyList, truthy, h]

theorem asNumber_eq_some (value : Option Json) (n : JsNum)
    (h : Json.asNumber value = some n) : value = some (Json.num n) := by
  match value, h with
  | some (.num k), h =>
    simp only [Json.asNumber, Option.some.injEq] at h
    rw [h]

theorem stepRaises_of_decodeLine (item : Json) (line : CartLine)
    (h : decodeLine item = some line) : stepRaises item = false := by
  cases item with
  | obj members =>
    cases hq : Json.asNumber (Json.property "quantity" members) with
    | none => simp [decodeLine, hq] at h
    | some n =>
      have := asNumber_eq_some _ n hq
      simp [stepRaises, this, convertRaises]
  | null => simp [decodeLine] at h
  | bool b => simp [decodeLine] at h
  | num n => simp [decodeLine] at h
  | str s => simp [decodeLine] at h
  | arr items => simp [decodeLine] at h

theorem decodeItems_no_raise (items : List Json) (lines : List CartLine)
    (h : decodeItems items = some lines) :
    items.any stepRaises = false := by
  induction items generalizing lines with
  | nil => rfl
  | cons item rest ih =>
    unfold decodeItems at h
    cases hd : decodeLine item with
    | none => simp [hd] at h
    | some line =>
      cases hr : decodeItems rest with
      | none => simp [hd, hr] at h
      | some ls =>
        simp [List.any_cons, stepRaises_of_decodeLine item line hd, ih ls hr]

theorem reduceRaises_of_decodeLines (v : Json) (lines : List CartLine)
    (h : decodeLines v = some lines) : reduceRaises v = false := by
  cases v with
  | arr items => exact decodeItems_no_raise items lines h
  | null => simp [decodeLines] at h
  | bool b => simp [decodeLines] at h
  | num n => simp [decodeLines] at h
  | str s => simp [decodeLines] at h
  | obj members => simp [decodeLines] at h

/-- C10 as stated fails: a stored string that is not JSON text, here a save cut
short, makes the constructor throw instead of giving the empty cart, whether
or not the badge element exists; and a stored JSON text that is no list of
cart lines, here `5`, becomes the cart as it is. -/
theorem construct_corrupt_counterexample :
    jsonParse "[\x7b\"id\":\"1\",\"title\":\"It En" = Except.error ParseFail.malformed ∧
    CartManager.construct false (some "[\x7b\"id\":\"1\",\"title\":\"It En")
      = Except.error JsError.jsonParseError ∧
    CartManager.construct true (some "[\x7b\"id\":\"1\",\"title\":\"It En")
      = Except.error JsError.jsonParseError ∧
    CartManager.construct false (some "5") = Except.ok (Json.num 5) ∧
    CartManager.construct true (some "5") = Except.error JsError.typeError :=
  ⟨rfl, rfl, rfl, rfl, rfl⟩

/-- C10, amended: when the key is absent or holds the empty string, the
constructor succeeds with the empty cart. When the stored string is JSON text,
the cart is the value the text encodes, whatever it is: the constructor
succeeds with it unless the badge element exists and summing the quantities
raises a type error, which it never does for a list of cart lines (objects
with the six properties, in any order); so a stored list of cart lines is
restored as that list. When the stored string is not JSON text, the
constructor fails with the parse error: the data is not replaced by an empty
cart. -/
theorem construct_spec (hasCartCount : Bool) (getItem : Option String) :
    ((getItem = none ∨ getItem = some "") →
      CartManager.construct hasCartCount getItem = Except.ok (Json.arr []) ∧
      decodeLines (Json.arr []) = some []) ∧
    (∀ s v, getItem = some s → s ≠ "" → jsonParse s = Except.ok v →
      ((hasCartCount = false ∨ reduceRaises v = false) →
        CartManager.construct hasCartCount getItem = Except.ok v) ∧
      (hasCartCount = true → reduceRaises v = true →
        CartManager.construct hasCartCount getItem = Except.error JsError.typeError) ∧
      (∀ lines, decodeLines v = some lines →
        CartManager.construct hasCartCount getItem = Except.ok v)) ∧
    (∀ s e, getItem = some s → s ≠ "" → jsonParse s = Except.error e →
      e = ParseFail.malformed ∧
      CartManager.construct hasCartCount getItem = Except.error JsError.jsonParseError) := by
  refine ⟨?_, ?_, ?_⟩
  · intro h
    have hs : storedOrEmptyList getItem = "[]" := by
      rcases h with rfl | rfl <;> rfl
    refine ⟨?_, rfl⟩
    simp [CartManager.construct, hs, jsonParse_emptyList, reduceRaises]
  · intro s v hg hne hp
    subst hg
    refine ⟨?_, ?_, ?_⟩
    · intro h
      rcases h with h | h <;>
        simp [CartManager.construct, storedOrEmptyList_of_nonempty s hne, hp, h]
    · intro h1 h2
      simp [CartManager.construct, storedOrEmptyList_of_nonempty s hne, hp, h1, h2]
    · intro lines hd
      simp [CartManager.construct, storedOrEmptyList_of_nonempty s hne, hp,
        reduceRaises_of_decodeLines v lines hd]
  · intro s e hg hne hp
    subst hg
    refine ⟨jsonParse_error s e hp, ?_⟩
    simp [CartManager.construct, storedOrEmptyList_of_nonempty s hne, hp]

/-- Witness for C10: a stored cart of one line, its properties out of order and
with one more, is restored as that line. -/
theorem construct_spec_witness :
    jsonParse storedExample = Except.ok restoredExample ∧
    decodeLines restoredExample
      = some [{ id := "1", title := "It Ends With Us", author := "Colleen Hoover",
                price := 350, image := "", quantity := 2 }] ∧
    CartManager.construct true (some storedExample) = Except.ok restoredExample :=
  ⟨rfl, rfl,
   ((construct_spec true (some storedExample)).2.1 storedExample restoredExample rfl
      (by decide) rfl).2.2
      [{ id := "1", title := "It Ends With Us", author := "Colleen Hoover",
         price := 350, image := "", quantity := 2 }] rfl⟩

/-! ## The cart badge -/

/-- C11: `CartManager.updateCartCount` computes the sum of the quantities of
all lines for every cart, but `BookTreasuresApp.updateCartCount` computes the
number of lines; after adding book "1" twice to the empty cart (one line with
quantity 2) the first gives 2 and the second gives 1, so the two disagree. -/
theorem updateCartCount_disagree :
    (∀ m : CartManager,
      CartManager.updateCartCount m = (m.cart.map (fun item => item.quantity)).sum) ∧
    (∀ m : CartManager, BookTreasuresApp.updateCartCount m = (m.cart.length : Int)) ∧
    (CartManager.run (some loadedApp) { cart := [], stored := none }
        [CartAction.add "1", CartAction.add "1"]).cart
      = [{ id := "1", title := "It Ends With Us", author := "Colleen Hoover",
           price := 350, image := itEndsWithUs.image, quantity := 2 }] ∧
    CartManager.updateCartCount
        (CartManager.run (some loadedApp) { cart := [], stored := none }
          [CartAction.add "1", CartAction.add "1"]) = 2 ∧
    BookTreasuresApp.updateCartCount
        (CartManager.run (some loadedApp) { cart := [], stored := none }
          [CartAction.add "1", CartAction.add "1"]) = 1 := by
  refine ⟨?_, fun m => rfl, by decide, by decide, by decide⟩
  intro m
  unfold CartManager.updateCartCount
  rw [foldl_add_eq_sum]
  simp

/-! ## Cart well-formedness -/

theorem modifyFirst_map_id (p : CartLine → Bool) (f : CartLine → CartLine)
    (hf : ∀ line, (f line).id = line.id) (cart : List CartLine) :
    (modifyFirst p f cart).map (fun line => line.id) = cart.map (fun line => line.id) := by
  induction cart with
  | nil => rfl
  | cons x xs ih =>
    unfold modifyFirst
    split_ifs
    · simp [hf x]
    · simp [ih]

theorem modifyFirst_forall (p : CartLine → Bool) (f : CartLine → CartLine)
    (good : CartLine → Prop) (cart : List CartLine) (hcart : ∀ line ∈ cart, good line)
    (hf : ∀ line ∈ cart, good (f line)) :
    ∀ line ∈ modifyFirst p f cart, good line := by
  induction cart with
  | nil => simp [modifyFirst]
  | cons x xs ih =>
    intro line hline
    unfold modifyFirst at hline
    split_ifs at hline
    · rcases List.mem_cons.1 hline with rfl | h
      · exact hf x (by simp)
      · exact hcart line (List.mem_cons_of_mem _ h)
    · rcases List.mem_cons.1 hline with rfl | h
      · exact hcart line (by simp)
      · exact ih (fun l hl => hcart l (List.mem_cons_of_mem _ hl))
          (fun l hl => hf l (List.mem_cons_of_mem _ hl)) line h

theorem wellFormed_modifyFirst (p : CartLine → Bool) (f : CartLine → CartLine)
    (hid : ∀ line, (f line).id = line.id)
    (hq : ∀ line, 1 ≤ line.quantity → 1 ≤ (f line).quantity)
    (cart : List CartLine) (h : wellFormed cart) : wellFormed (modifyFirst p f cart) := by
  refine ⟨?_, ?_⟩
  · exact modifyFirst_forall p f (fun line => 1 ≤ line.quantity) cart h.1
      (fun line hl => hq line (h.1 line hl))
  · rw [modifyFirst_map_id p f hid]
    exact h.2

theorem wellFormed_addToCart (app : Option BookTreasuresApp) (m : CartManager)
    (bookId : String) (h : wellFormed m.cart) :
    wellFormed (CartManager.addToCart app m bookId).1.cart := by
  unfold CartManager.addToCart
  cases app.bind (fun a => a.books.find? (fun b => b.id == bookId)) with
  | none => exact h
  | some book =>
    simp only [CartManager.saveCart]
    cases hfind : m.cart.find? (fun item => item.id == bookId) with
    | some line =>
      exact wellFormed_modifyFirst (fun item => item.id == bookId)
        (fun item => { item with quantity := nearestInt53 (item.quantity + 1) })
        (fun _ => rfl)
        (fun item hl => one_le_nearestInt53 (item.quantity + 1) (by omega)) m.cart h
    | none =>
      have hno := (find?_id_eq_none m.cart bookId).1 hfind
      refine ⟨?_, ?_⟩
      · intro line hline
        rcases List.mem_append.1 hline with hl | hl
        · exact h.1 line hl
        · rw [List.mem_singleton.1 hl]
      · rw [List.map_append, List.nodup_append]
        refine ⟨h.2, by simp, ?_⟩
        intro x hx hy
        simp only [List.map_cons, List.map_nil, List.mem_singleton] at hy
        obtain ⟨line, hline, hlx⟩ := List.mem_map.1 hx
        exact hno line hline (hlx.trans hy)

theorem wellFormed_removeFromCart (m : CartManager) (bookId : String)
    (h : wellFormed m.cart) : wellFormed (CartManager.removeFromCart m bookId).cart := by
  simp only [CartManager.removeFromCart, CartManager.saveCart]
  refine ⟨?_, ?_⟩
  · intro line hline
    exact h.1 line (List.mem_of_mem_filter hline)
  · exact h.2.sublist ((List.filter_sublist m.cart).map _)

theorem wellFormed_updateQuantity (m : CartManager) (bookId : String) (q : Int)
    (h : wellFormed m.cart) : wellFormed (CartManager.updateQuantity m bookId q).cart := by
  unfold CartManager.updateQuantity
  cases hfind : m.cart.find? (fun item => item.id == bookId) with
  | some line =>
    simp only [CartManager.saveCart]
    exact wellFormed_modifyFirst (fun item => item.id == bookId)
      (fun item => { item with quantity := max 1 q }) (fun _ => rfl)
      (fun _ _ => le_max_left 1 q) m.cart h
  | none => exact h

theorem wellFormed_clearCart (m : CartManager) :
    wellFormed (CartManager.clearCart m).cart := by
  simp [CartManager.clearCart, CartManager.saveCart, wellFormed]

theorem wellFormed_step (app : Option BookTreasuresApp) (m : CartManager)
    (action : CartAction) (h : wellFormed m.cart) :
    wellFormed (CartManager.step app m action).cart := by
  cases action with
  | add bookId => exact wellFormed_addToCart app m bookId h
  | remove bookId => exact wellFormed_removeFromCart m bookId h
  | update bookId q => exact wellFormed_updateQuantity m bookId q h
  | clear => exact wellFormed_clearCart m

theorem wellFormed_run (app : Option BookTreasuresApp) (actions : List CartAction)
    (m : CartManager) (h : wellFormed m.cart) :
    wellFormed (CartManager.run app m actions).cart := by
  induction actions generalizing m with
  | nil => exact h
  | cons action rest ih =>
    unfold CartManager.run
    exact ih _ (wellFormed_step app m action h)

theorem filter_id_ne_of_split (bookId : String) (front back : List CartLine) (line : CartLine)
    (hline : line.id = bookId)
    (hnodup : ((front ++ line :: back).map (fun l => l.id)).Nodup) :
    (front ++ line :: back).filter (fun item => item.id != bookId) = front ++ back := by
  have hne : ∀ l ∈ front ++ back, (l.id != bookId) = true := by
    intro l hl
    rw [List.map_append, List.map_cons, List.nodup_middle, List.nodup_cons,
      ← List.map_append] at hnodup
    have hmem : l.id ∈ (front ++ back).map (fun l => l.id) := List.mem_map.2 ⟨l, hl, rfl⟩
    rw [bne_iff_ne]
    intro heq
    exact hnodup.1 (by rw [hline, ← heq]; exact hmem)
  rw [List.filter_append, List.filter_cons]
  have h1 : (line.id != bookId) = false := by simp [hline]
  rw [h1]
  simp only [Bool.false_eq_true, if_false]
  rw [← List.filter_append]
  exact List.filter_eq_self.2 hne

/-- C12: cart well-formedness (every quantity at least 1, no id twice) is kept by
`addToCart(id)`, `removeFromCart(id)`, `updateQuantity(id, q)` and
`clearCart()`, for every catalog, id and integer `q`, so it holds in every
cart reached from the empty cart by any sequence of these calls. After
`removeFromCart(id)` no line has that id, and the lines kept are exactly the
other lines, in their order (in a well-formed cart: the cart without its one
line of that id); when no line has the id the cart is unchanged. -/
theorem cart_wellFormed_invariant (app : Option BookTreasuresApp) (m : CartManager)
    (bookId : String) (q : Int) (stored : Option String) (actions : List CartAction) :
    (wellFormed m.cart →
      wellFormed (CartManager.addToCart app m bookId).1.cart ∧
      wellFormed (CartManager.removeFromCart m bookId).cart ∧
      wellFormed (CartManager.updateQuantity m bookId q).cart ∧
      wellFormed (CartManager.clearCart m).cart) ∧
    wellFormed (CartManager.run app { cart := [], stored := stored } actions).cart ∧
    (∀ line ∈ (CartManager.removeFromCart m bookId).cart, line.id ≠ bookId) ∧
    (CartManager.removeFromCart m bookId).cart.Sublist m.cart ∧
    (∀ line ∈ m.cart, line.id ≠ bookId → line ∈ (CartManager.removeFromCart m bookId).cart) ∧
    (CartManager.removeFromCart m bookId).cart
      = m.cart.filter (fun line => decide (line.id ≠ bookId)) ∧
    (∀ front line back, wellFormed m.cart → m.cart = front ++ line :: back →
      line.id = bookId → (CartManager.removeFromCart m bookId).cart = front ++ back) ∧
    ((∀ line ∈ m.cart, line.id ≠ bookId) →
      (CartManager.removeFromCart m bookId).cart = m.cart) := by
  have hcart : (CartManager.removeFromCart m bookId).cart
      = m.cart.filter (fun item => item.id != bookId) := rfl
  refine ⟨?_, ?_, ?_, ?_, ?_, ?_, ?_, ?_⟩
  · intro h
    exact ⟨wellFormed_addToCart app m bookId h, wellFormed_removeFromCart m bookId h,
      wellFormed_updateQuantity m bookId q h, wellFormed_clearCart m⟩
  · exact wellFormed_run app actions _ ⟨by simp, by simp⟩
  · intro line hline
    rw [hcart] at hline
    have := (List.mem_filter.1 hline).2
    exact bne_iff_ne.1 this
  · rw [hcart]
    exact List.filter_sublist m.cart
  · intro line hline hne
    rw [hcart]
    exact List.mem_filter.2 ⟨hline, bne_iff_ne.2 hne⟩
  · rw [hcart]
    congr 1
    funext line
    simp only [decide_not]
    rfl
  · intro front line back hwf hsplit hid
    rw [hcart, hsplit]
    exact filter_id_ne_of_split bookId front back line hid (hsplit ▸ hwf.2)
  · intro hno
    rw [hcart]
    exact List.filter_eq_self.2 (fun line hline => bne_iff_ne.2 (hno line hline))

/-- Witness for C12: from the well-formed cart of one line with quantity 2, each
of the four calls gives a well-formed cart. -/
theorem cart_wellFormed_invariant_witness :
    wellFormed [{ id := "1", title := "It Ends With Us", author := "Colleen Hoover",
                  price := 350, image := "", quantity := 2 }] ∧
    wellFormed (CartManager.addToCart (some loadedApp)
      { cart := [{ id := "1", title := "It Ends With Us", author := "Colleen Hoover",
                   price := 350, image := "", quantity := 2 }],
        stored := none } "1").1.cart ∧
    wellFormed (CartManager.removeFromCart
      { cart := [{ id := "1", title := "It Ends With Us", author := "Colleen Hoover",
                   price := 350, image := "", quantity := 2 }],
        stored := none } "1").cart ∧
    wellFormed (CartManager.updateQuantity
      { cart := [{ id := "1", title := "It Ends With Us", author := "Colleen Hoover",
                   price := 350, image := "", quantity := 2 }],
        stored := none } "1" 0).cart ∧
    wellFormed (CartManager.clearCart
      { cart := [{ id := "1", title := "It Ends With Us", author := "Colleen Hoover",
                   price := 350, image := "", quantity := 2 }],
        stored := none }).cart :=
  ⟨⟨by decide, by decide⟩,
   (cart_wellFormed_invariant (some loadedApp)
      { cart := [{ id := "1", title := "It Ends With Us", author := "Colleen Hoover",
                   price := 350, image := "", quantity := 2 }],
        stored := none } "1" 0 none []).1 ⟨by decide, by decide⟩⟩

end Bookstore
